import Mathlib

/-!
# sinet task pool: a shallow embedding of `pool_impl.cc`

The pool (`sinet::pool_impl`) owns three collections of task handles, a
queue (`std::vector`), a running map (`std::map` from task to `task_info`)
and a finished list (`std::vector`), and one coordinator thread (`_thread`)
that pumps the running transfers and admits queued tasks.

Modelling decisions, all read off the source:

* a `refptr<task>` is compared by pointer, so a task handle is the address
  it holds, a natural number, with `0` the null handle;
* `CURLM*` and `CURL*` are addresses too; every call into the transport
  engine (libcurl) is appended to a trace kept in the state, and the values
  the engine returns (`curl_multi_init`, `curl_easy_init`, the active count
  written by `curl_multi_perform`) are arguments of the operation;
* the status field lives in the task object, so the state carries the heap
  of status fields as a function from task handle to status;
* `execute`, `cancel`, the queries and a coordinator iteration are atomic
  steps; `clear_all` takes its three locks one after another (the running
  lock is released before the queue lock is taken), so each of its three
  sections is a step of its own and other steps may fall between them;
* a `std::vector` iterator is a position in the vector.  `vector::erase`
  shifts the tail one slot to the left and leaves the position as it is;
  a position beyond `end()` that is dereferenced is undefined behaviour,
  and the operation then has no result (`none`);
* `size_t` is 64 bits wide and its arithmetic wraps; `int` values are
  integers (no `int` computed here leaves the 32-bit range).
-/

namespace sinet

/-- A task handle: the address held by a `refptr<task>`. -/
abbrev Task := Nat

/-- A transport handle: the address behind a `CURLM*` or a `CURL*`. -/
abbrev Handle := Nat

/-- The null `refptr<task>`; `!task_in` in `execute` tests for it. -/
def null_task : Task := 0

/-- Modelled from the spec: the status enumeration of `task.h`, which is not
among the sources.  The spec lists the five values; the pool code names
`taskstatus_queued`, `taskstatus_canceled` and `taskstatus_completed`. -/
inductive taskstatus where
  | created
  | queued
  | running
  | canceled
  | completed
  deriving DecidableEq, Repr

/-- The options `_prepare_task` sets on a transfer handle. -/
inductive curlopt where
  | URL
  | SSL_VERIFYPEER
  | WRITEFUNCTION
  | WRITEDATA
  | PROXY
  deriving DecidableEq, Repr

/-- One call into the transport engine, as recorded in the trace. -/
inductive curl_call where
  | multi_init (hmaster : Handle)
  | easy_init (curl : Handle)
  | easy_setopt (curl : Handle) (opt : curlopt)
  | multi_add_handle (hmaster curl : Handle)
  | multi_perform (hmaster : Handle)
  | multi_remove_handle (hmaster curl : Handle)
  | easy_cleanup (curl : Handle)
  | multi_cleanup (hmaster : Handle)
  deriving DecidableEq, Repr

/-- The record `pool_impl::task_info` of `pool_impl.h`. -/
structure task_info where
  hmaster : Handle
  htasks : List Handle
  running_handle : Int
  deriving DecidableEq, Repr

/-- The members of `pool_impl`, the status fields of the task objects, the
trace of transport calls and the local `sleep_period` of `_thread`. -/
structure pool_impl where
  m_tasks_running : List (Task × task_info)
  m_task_queue : List Task
  m_task_finished : List Task
  task_status : Task → taskstatus
  curl_calls : List curl_call
  sleep_period : Int

/-- A freshly constructed pool: the three collections are empty, nothing has
been asked of the transport engine and `sleep_period` is 5. -/
def empty_pool (status : Task → taskstatus) : pool_impl where
  m_tasks_running := []
  m_task_queue := []
  m_task_finished := []
  task_status := status
  curl_calls := []
  sleep_period := 5

/-! ## `std::map` on a key-ordered association list -/

/-- The key set of the running map, in iteration order. -/
def map_keys (m : List (Task × task_info)) : List Task := m.map Prod.fst

/-- `std::map::find`: the entry stored under `k`, if any. -/
def map_find (m : List (Task × task_info)) (k : Task) : Option (Task × task_info) :=
  m.find? (fun e => e.1 == k)

/-- `std::map::erase(it)`, the iterator standing on the entry of key `k`. -/
def map_erase : List (Task × task_info) → Task → List (Task × task_info)
  | [], _ => []
  | e :: rest, k => if e.1 = k then rest else e :: map_erase rest k

/-- `m[k] = v`: replaces the value under `k` or inserts the entry at its
place in key order. -/
def map_set : List (Task × task_info) → Task → task_info → List (Task × task_info)
  | [], k, v => [(k, v)]
  | e :: rest, k, v =>
    if k < e.1 then (k, v) :: e :: rest
    else if k = e.1 then (k, v) :: rest
    else e :: map_set rest k v

/-- `task::set_status` on the task object behind handle `t`. -/
def set_status (status : Task → taskstatus) (t : Task) (v : taskstatus) : Task → taskstatus :=
  fun u => if u = t then v else status u

/-! ## Transport session -/

/-- The calls `_cancel_running_task` makes: every transfer handle is removed
from the master handle and cleaned up, then the master handle is cleaned up. -/
def _cancel_running_task (hmaster : Handle) (htasks : List Handle) : List curl_call :=
  htasks.flatMap (fun h => [curl_call.multi_remove_handle hmaster h, curl_call.easy_cleanup h])
    ++ [curl_call.multi_cleanup hmaster]

/-- The record `_prepare_task` fills in, given the handles `curl_multi_init`
and `curl_easy_init` returned; `taskinfo_in_out` is a fresh record, so its
handle list is the one handle pushed here. -/
def _prepare_task (hmaster curl : Handle) : task_info where
  hmaster := hmaster
  htasks := [curl]
  running_handle := 0

/-- The calls `_prepare_task` makes, in order. -/
def _prepare_task_calls (hmaster curl : Handle) : List curl_call :=
  [curl_call.multi_init hmaster, curl_call.easy_init curl,
   curl_call.easy_setopt curl curlopt.URL,
   curl_call.easy_setopt curl curlopt.SSL_VERIFYPEER,
   curl_call.easy_setopt curl curlopt.WRITEFUNCTION,
   curl_call.easy_setopt curl curlopt.WRITEDATA,
   curl_call.easy_setopt curl curlopt.PROXY,
   curl_call.multi_add_handle hmaster curl]

/-! ## Public operations -/

/-- `pool_impl::execute`: a null handle is ignored; otherwise the status is
set to queued and the handle is pushed at the back of the queue. -/
def execute (s : pool_impl) (task_in : Task) : pool_impl :=
  if task_in = null_task then s
  else
    { s with
      task_status := set_status s.task_status task_in taskstatus.queued
      m_task_queue := s.m_task_queue ++ [task_in] }

/-- The queue scan of `pool_impl::cancel`, from position `it` on:
`for (; it != end(); it++) if (*it == task_in) erase(it);`.
After an erase the position is still incremented, so the element that moved
into the erased slot is not examined, and when the erased element was the
last one the position passes `end()`: the next `*it` reads outside the
vector and the scan has no result. -/
def cancel_queue_scan (task_in : Task) (queue : List Task) (it : Nat) : Option (List Task) :=
  if h : it < queue.length then
    if queue.get ⟨it, h⟩ = task_in then
      cancel_queue_scan task_in (queue.eraseIdx it) (it + 1)
    else
      cancel_queue_scan task_in queue (it + 1)
  else if it = queue.length then some queue
  else none
termination_by queue.length - it
decreasing_by
  all_goals simp_wf
  · rw [List.length_eraseIdx]
    simp [h]
    omega
  · omega

/-- The first half of `pool_impl::cancel` ("stop task if it's running"): a
task found in the running map has its session closed, its status set to
canceled, is pushed on the finished list and erased from the running map. -/
def cancel_running (s : pool_impl) (task_in : Task) : pool_impl :=
  match map_find s.m_tasks_running task_in with
  | some it =>
    { s with
      curl_calls := s.curl_calls ++ _cancel_running_task it.2.hmaster it.2.htasks
      task_status := set_status s.task_status it.1 taskstatus.canceled
      m_task_finished := s.m_task_finished ++ [it.1]
      m_tasks_running := map_erase s.m_tasks_running it.1 }
  | none => s

/-- `pool_impl::cancel`: the running half, then the scan of the queue from
`begin()`; no result when the scan has none. -/
def cancel (s : pool_impl) (task_in : Task) : Option pool_impl :=
  let s1 := cancel_running s task_in
  match cancel_queue_scan task_in s1.m_task_queue 0 with
  | some queue => some { s1 with m_task_queue := queue }
  | none => none

/-- `pool_impl::is_running`: 1 when the task has an entry in the running map
whose `running_handle` is positive. -/
def is_running (s : pool_impl) (task_in : Task) : Int :=
  match map_find s.m_tasks_running task_in with
  | some it => if it.2.running_handle > 0 then 1 else 0
  | none => 0

/-- The scan of the queue in `is_queued` and `is_running_or_queued`: `ret`
becomes 1 at the first element equal to `task_in`. -/
def queue_scan (task_in : Task) (ret : Int) : List Task → Int
  | [] => ret
  | x :: rest => if x = task_in then 1 else queue_scan task_in ret rest

/-- `pool_impl::is_queued`. -/
def is_queued (s : pool_impl) (task_in : Task) : Int :=
  queue_scan task_in 0 s.m_task_queue

/-- `pool_impl::is_running_or_queued`: the test of `is_running`, then the
scan of `is_queued`, on one state. -/
def is_running_or_queued (s : pool_impl) (task_in : Task) : Int :=
  let ret : Int :=
    match map_find s.m_tasks_running task_in with
    | some it => if it.2.running_handle > 0 then 1 else 0
    | none => 0
  queue_scan task_in ret s.m_task_queue

/-- The first section of `pool_impl::clear_all`, under the running lock:
`_cancel_running_task` on every entry of the running map, then the map is
cleared. -/
def clear_all_running (s : pool_impl) : pool_impl :=
  { s with
    curl_calls := s.curl_calls ++
      s.m_tasks_running.flatMap (fun it => _cancel_running_task it.2.hmaster it.2.htasks)
    m_tasks_running := [] }

/-- The second section of `pool_impl::clear_all`, under the queue lock,
taken after the running lock has been released: the queue is emptied. -/
def clear_all_queue (s : pool_impl) : pool_impl :=
  { s with m_task_queue := [] }

/-- The third section of `pool_impl::clear_all`, under the finished lock:
the finished list is emptied. -/
def clear_all_finished (s : pool_impl) : pool_impl :=
  { s with m_task_finished := [] }

/-- `pool_impl::clear_all` with no other step between its three sections. -/
def clear_all (s : pool_impl) : pool_impl :=
  clear_all_finished (clear_all_queue (clear_all_running s))

/-! ## The coordinator thread -/

/-- What the first loop of step 1 of `_thread` leaves behind. -/
structure pump_result where
  running : List (Task × task_info)
  its_running_toclear : List (Task × task_info)
  calls : List curl_call
  tasks_still_running : Nat
  sleep_period : Int

/-- The first loop of step 1: `curl_multi_perform` on every entry of the
running map, in map order; the `k`-th call of the iteration writes
`perform k` into `running_handle`.  An entry whose count is 0 is noted for
removal (and its task pushed on the finished list), any other entry counts
as still running. -/
def pump (perform : Nat → Int) (sleep_period : Int) :
    Nat → List (Task × task_info) → pump_result
  | _, [] =>
    { running := [], its_running_toclear := [], calls := [],
      tasks_still_running := 0, sleep_period := sleep_period }
  | k, it :: rest =>
    let r := pump perform sleep_period (k + 1) rest
    let it1 : Task × task_info := (it.1, { it.2 with running_handle := perform k })
    { running := it1 :: r.running
      its_running_toclear :=
        if it1.2.running_handle = 0 then it1 :: r.its_running_toclear
        else r.its_running_toclear
      calls := curl_call.multi_perform it.2.hmaster :: r.calls
      tasks_still_running :=
        if it1.2.running_handle = 0 then r.tasks_still_running
        else r.tasks_still_running + 1
      sleep_period := 5 }

/-- The second loop of step 1: every noted entry has its session closed, its
task marked completed, and is erased from the running map. -/
def clear_finished (s : pool_impl) : List (Task × task_info) → pool_impl
  | [] => s
  | it :: rest =>
    clear_finished
      { s with
        curl_calls := s.curl_calls ++ _cancel_running_task it.2.hmaster it.2.htasks
        task_status := set_status s.task_status it.1 taskstatus.completed
        m_tasks_running := map_erase s.m_tasks_running it.1 }
      rest

/-- Step 1 of an iteration of `_thread`: both loops; the second component is
`tasks_still_running`. -/
def thread_step1 (perform : Nat → Int) (s : pool_impl) : pool_impl × Nat :=
  let r := pump perform s.sleep_period 0 s.m_tasks_running
  let s1 : pool_impl :=
    { s with
      m_tasks_running := r.running
      m_task_finished := s.m_task_finished ++ map_keys r.its_running_toclear
      curl_calls := s.curl_calls ++ r.calls
      sleep_period := r.sleep_period }
  (clear_finished s1 r.its_running_toclear, r.tasks_still_running)

/-- The value of an `int` converted to `size_t`, as in the comparisons of
`sleep_period` with the `size_t` constant `sleep_period_max`. -/
def int_to_size_t (x : Int) : Nat := (x % 2 ^ 64).toNat

/-- Step 3 of an iteration of `_thread`, entered when `tasks_still_running`
is 0: the task at the front of the queue gets a session (`_prepare_task`,
with the handles the engine returned), enters the running map with
`running_handle` 1 and is erased from the queue; with an empty queue the
sleep period is doubled up to 500. -/
def thread_step3 (hmaster curl : Handle) (s : pool_impl) : pool_impl :=
  match s.m_task_queue with
  | it :: rest =>
    let ti : task_info := { _prepare_task hmaster curl with running_handle := 1 }
    { s with
      curl_calls := s.curl_calls ++ _prepare_task_calls hmaster curl
      m_tasks_running := map_set s.m_tasks_running it ti
      m_task_queue := rest
      sleep_period := 5 }
  | [] =>
    if int_to_size_t s.sleep_period < 500 then
      let sleep_period := s.sleep_period * 2
      if int_to_size_t sleep_period > 500 then { s with sleep_period := 500 }
      else { s with sleep_period := sleep_period }
    else s

/-- One iteration of the loop of `pool_impl::_thread`. -/
def thread_iteration (perform : Nat → Int) (hmaster curl : Handle) (s : pool_impl) : pool_impl :=
  let r := thread_step1 perform s
  if r.2 = 0 then thread_step3 hmaster curl r.1 else r.1

/-! ## The write callback -/

/-- `write_mem_callback` on a request whose response size is
`response_size`: the new response size and the returned `realsize`, both
`size_t`. -/
def write_mem_callback (response_size size nmemb : Nat) : Nat × Nat :=
  let realsize := (size * nmemb) % 2 ^ 64
  ((response_size + realsize + 1) % 2 ^ 64, realsize)

/-- The response size of a request after the callback has run on each
`(size, nmemb)` of `chunks`, in order. -/
def response_size_after (response_size : Nat) : List (Nat × Nat) → Nat
  | [] => response_size
  | c :: rest => response_size_after (write_mem_callback response_size c.1 c.2).1 rest

/-! ## Runs of the pool -/

/-- One atomic step of the pool: a public operation, one of the three lock
sections of `clear_all`, or one iteration of the coordinator with the values
the transport engine returns during it. -/
inductive pool_op where
  | execute (task_in : Task)
  | cancel (task_in : Task)
  | clear_all
  | clear_all_running
  | clear_all_queue
  | clear_all_finished
  | iterate (perform : Nat → Int) (hmaster curl : Handle)

/-- The state after one step; `none` when the step has undefined behaviour. -/
def step (s : pool_impl) : pool_op → Option pool_impl
  | pool_op.execute t => some (execute s t)
  | pool_op.cancel t => cancel s t
  | pool_op.clear_all => some (clear_all s)
  | pool_op.clear_all_running => some (clear_all_running s)
  | pool_op.clear_all_queue => some (clear_all_queue s)
  | pool_op.clear_all_finished => some (clear_all_finished s)
  | pool_op.iterate perform hmaster curl => some (thread_iteration perform hmaster curl s)

/-- The state after a sequence of steps. -/
def run (s : pool_impl) : List pool_op → Option pool_impl
  | [] => some s
  | op :: ops =>
    match step s op with
    | some s1 => run s1 ops
    | none => none

/-! ## Predicates on states and runs -/

/-- No task is a member of two of the queue, the running map and the
finished list. -/
def at_most_one_collection (s : pool_impl) : Prop :=
  ∀ t : Task,
    ¬ (t ∈ s.m_task_queue ∧ t ∈ map_keys s.m_tasks_running) ∧
    ¬ (t ∈ s.m_task_queue ∧ t ∈ s.m_task_finished) ∧
    ¬ (t ∈ map_keys s.m_tasks_running ∧ t ∈ s.m_task_finished)

/-- The pool holds task `t` in one of its collections. -/
def held (s : pool_impl) (t : Task) : Prop :=
  t ∈ s.m_task_queue ∨ t ∈ map_keys s.m_tasks_running ∨ t ∈ s.m_task_finished

/-- Along the run of `ops` from `s`, `execute` is only called on a task the
pool does not hold at that moment. -/
def fresh_executes : pool_impl → List pool_op → Prop
  | _, [] => True
  | s, op :: ops =>
    (match op with
      | pool_op.execute t => ¬ held s t
      | _ => True) ∧
    (match step s op with
      | some s1 => fresh_executes s1 ops
      | none => True)

/-- Every `curl_multi_perform` of the step reports a non-negative count. -/
def nonneg_pump : pool_op → Prop
  | pool_op.iterate perform _ _ => ∀ k, 0 ≤ perform k
  | _ => True

/-- The step is an `execute` or a coordinator iteration. -/
def execute_or_iterate : pool_op → Prop
  | pool_op.execute _ => True
  | pool_op.iterate _ _ _ => True
  | _ => False

/-- The non-null tasks handed to `execute` along `ops`, in call order. -/
def executed : List pool_op → List Task
  | [] => []
  | pool_op.execute t :: ops => if t = null_task then executed ops else t :: executed ops
  | _ :: ops => executed ops

/-- The status changes the task life cycle lists: created to queued, queued
to running, running to completed, queued or running to canceled. -/
def lifecycle_transition : taskstatus → taskstatus → Bool
  | taskstatus.created, taskstatus.queued => true
  | taskstatus.queued, taskstatus.running => true
  | taskstatus.running, taskstatus.completed => true
  | taskstatus.queued, taskstatus.canceled => true
  | taskstatus.running, taskstatus.canceled => true
  | _, _ => false

/-- The life cycle transitions together with queued to completed, the change
a completing iteration makes to a task that admission left queued. -/
def pool_transition (a b : taskstatus) : Bool :=
  lifecycle_transition a b || (a == taskstatus.queued && b == taskstatus.completed)

/-- What holds of a state reached by executing the tasks `done`, each once:
the single running slot, a queue without repetition, membership in at most
one collection, every held task has been executed, a task never executed is
still created, and a queued or running task has status queued. -/
def once_only_inv (s : pool_impl) (done : List Task) : Prop :=
  s.m_tasks_running.length ≤ 1 ∧ s.m_task_queue.Nodup ∧ at_most_one_collection s ∧
  (∀ u, held s u → u ∈ done) ∧
  (∀ u, u ∉ done → s.task_status u = taskstatus.created) ∧
  (∀ u, u ∈ s.m_task_queue ∨ u ∈ map_keys s.m_tasks_running →
    s.task_status u = taskstatus.queued)

/-- The transport call is a `curl_multi_cleanup`, the end of a session. -/
def is_multi_cleanup : curl_call → Bool
  | curl_call.multi_cleanup _ => true
  | _ => false

/-- The transport call is a `curl_multi_init`, the start of a session. -/
def is_multi_init : curl_call → Bool
  | curl_call.multi_init _ => true
  | _ => false

/-! ## The running map -/

theorem map_find_some (m : List (Task × task_info)) (k : Task) (it : Task × task_info)
    (h : map_find m k = some it) : it.1 = k ∧ it ∈ m := by
  unfold map_find at h
  have h1 := List.find?_some h
  have h2 := List.mem_of_find?_eq_some h
  exact ⟨by simpa using h1, h2⟩

theorem map_find_none (m : List (Task × task_info)) (k : Task) :
    map_find m k = none ↔ k ∉ map_keys m := by
  unfold map_find map_keys
  rw [List.find?_eq_none]
  simp only [List.mem_map, beq_iff_eq]
  constructor
  · rintro h ⟨e, he, rfl⟩
    exact h e he (by simp)
  · intro h e he hk
    exact h ⟨e, he, by simpa using hk⟩

theorem map_find_map_set (m : List (Task × task_info)) (k : Task) (v : task_info) :
    map_find (map_set m k v) k = some (k, v) := by
  induction m with
  | nil => simp [map_set, map_find]
  | cons e rest ih =>
    unfold map_set
    by_cases h1 : k < e.1
    · simp [h1, map_find]
    · by_cases h2 : k = e.1
      · simp [h2, map_find]
      · have h3 : ¬ e.1 = k := fun h => h2 h.symm
        simp only [h1, h2, if_false]
        unfold map_find at ih ⊢
        rw [List.find?_cons]
        have h4 : (e.1 == k) = false := by simpa using h3
        simp only [h4]
        exact ih

/-! ## The queue scan of `cancel` -/

theorem cancel_queue_scan_sublist (t : Task) (queue : List Task) (it : Nat) (q : List Task)
    (h : cancel_queue_scan t queue it = some q) : q.Sublist queue := by
  induction queue, it using cancel_queue_scan.induct t generalizing q with
  | case1 queue it hlt heq ih =>
    rw [cancel_queue_scan] at h
    simp only [hlt, heq, dite_true, if_true] at h
    exact (ih q h).trans (List.eraseIdx_sublist queue it)
  | case2 queue it hlt hne ih =>
    rw [cancel_queue_scan] at h
    simp only [hlt, hne, dite_true, if_false] at h
    exact ih q h
  | case3 queue hlt =>
    rw [cancel_queue_scan] at h
    simp only [hlt, dite_false, if_true] at h
    cases h
    exact List.Sublist.refl _
  | case4 queue it hlt hne =>
    rw [cancel_queue_scan] at h
    simp [hlt, hne] at h

theorem cancel_queue_scan_absent (t : Task) (queue : List Task) (it : Nat)
    (hle : it ≤ queue.length) (h : t ∉ queue) : cancel_queue_scan t queue it = some queue := by
  induction queue, it using cancel_queue_scan.induct t with
  | case1 queue it hlt heq ih =>
    exact absurd (heq ▸ List.get_mem queue it hlt) h
  | case2 queue it hlt hne ih =>
    rw [cancel_queue_scan]
    simp only [hlt, hne, dite_true, if_false]
    exact ih (by omega) h
  | case3 queue hlt =>
    rw [cancel_queue_scan]
    simp
  | case4 queue it hlt hne =>
    omega

/-! ## One coordinator iteration, case by case -/

theorem thread_step3_empty (hmaster curl : Handle) (s : pool_impl) (h : s.m_task_queue = []) :
    (thread_step3 hmaster curl s).m_tasks_running = s.m_tasks_running ∧
    (thread_step3 hmaster curl s).m_task_queue = [] ∧
    (thread_step3 hmaster curl s).m_task_finished = s.m_task_finished ∧
    (thread_step3 hmaster curl s).task_status = s.task_status ∧
    (thread_step3 hmaster curl s).curl_calls = s.curl_calls := by
  unfold thread_step3
  rw [h]
  simp only
  split_ifs <;> simp [h]

theorem thread_step3_front (hmaster curl : Handle) (s : pool_impl) (t : Task) (rest : List Task)
    (h : s.m_task_queue = t :: rest) :
    thread_step3 hmaster curl s =
      { s with
        curl_calls := s.curl_calls ++ _prepare_task_calls hmaster curl
        m_tasks_running :=
          map_set s.m_tasks_running t { _prepare_task hmaster curl with running_handle := 1 }
        m_task_queue := rest
        sleep_period := 5 } := by
  unfold thread_step3
  rw [h]

theorem thread_iteration_idle (perform : Nat → Int) (hmaster curl : Handle) (s : pool_impl)
    (h : s.m_tasks_running = []) :
    thread_iteration perform hmaster curl s = thread_step3 hmaster curl s := by
  cases s
  simp only at h
  subst h
  simp [thread_iteration, thread_step1, pump, clear_finished, map_keys]

theorem thread_iteration_single_done (perform : Nat → Int) (hmaster curl : Handle)
    (s : pool_impl) (k : Task) (i : task_info) (h : s.m_tasks_running = [(k, i)])
    (hp : perform 0 = 0) :
    ∃ s2 : pool_impl,
      thread_iteration perform hmaster curl s = thread_step3 hmaster curl s2 ∧
      s2.m_tasks_running = [] ∧
      s2.m_task_queue = s.m_task_queue ∧
      s2.m_task_finished = s.m_task_finished ++ [k] ∧
      s2.task_status = set_status s.task_status k taskstatus.completed ∧
      s2.curl_calls = s.curl_calls ++ [curl_call.multi_perform i.hmaster]
        ++ _cancel_running_task i.hmaster i.htasks := by
  refine ⟨{ s with
            m_tasks_running := []
            m_task_finished := s.m_task_finished ++ [k]
            curl_calls := s.curl_calls ++ [curl_call.multi_perform i.hmaster]
              ++ _cancel_running_task i.hmaster i.htasks
            task_status := set_status s.task_status k taskstatus.completed
            sleep_period := 5 }, ?_, rfl, rfl, rfl, rfl, rfl⟩
  cases s
  simp only at h
  subst h
  simp [thread_iteration, thread_step1, pump, clear_finished, map_keys, hp, map_erase]

theorem thread_iteration_single_busy (perform : Nat → Int) (hmaster curl : Handle)
    (s : pool_impl) (k : Task) (i : task_info) (h : s.m_tasks_running = [(k, i)])
    (hp : perform 0 ≠ 0) :
    thread_iteration perform hmaster curl s =
      { s with
        m_tasks_running := [(k, { i with running_handle := perform 0 })]
        curl_calls := s.curl_calls ++ [curl_call.multi_perform i.hmaster]
        sleep_period := 5 } := by
  cases s
  simp only at h
  subst h
  simp [thread_iteration, thread_step1, pump, clear_finished, map_keys, hp, map_erase]

theorem length_le_one_cases {α : Type} (l : List α) (h : l.length ≤ 1) :
    l = [] ∨ ∃ a, l = [a] := by
  match l, h with
  | [], _ => exact Or.inl rfl
  | [a], _ => exact Or.inr ⟨a, rfl⟩
  | _ :: _ :: _, h => simp at h

/-- The three collections after one iteration entered with at most one
running task: the running task, if its count is 0, goes to the end of the
finished list; the front of the queue is admitted when nothing is left
running. -/
theorem thread_iteration_collections (perform : Nat → Int) (hmaster curl : Handle)
    (s : pool_impl) (h : s.m_tasks_running.length ≤ 1) :
    ∃ done : List Task,
      (thread_iteration perform hmaster curl s).m_task_finished = s.m_task_finished ++ done ∧
      ((done = [] ∧
          (thread_iteration perform hmaster curl s).m_task_queue = s.m_task_queue ∧
          ∃ k i, s.m_tasks_running = [(k, i)] ∧ perform 0 ≠ 0 ∧
            (thread_iteration perform hmaster curl s).m_tasks_running =
              [(k, { i with running_handle := perform 0 })]) ∨
       (done = map_keys s.m_tasks_running ∧
          (s.m_tasks_running = [] ∨ perform 0 = 0) ∧
          ((s.m_task_queue = [] ∧
              (thread_iteration perform hmaster curl s).m_task_queue = [] ∧
              (thread_iteration perform hmaster curl s).m_tasks_running = []) ∨
           (∃ t rest, s.m_task_queue = t :: rest ∧
              (thread_iteration perform hmaster curl s).m_task_queue = rest ∧
              (thread_iteration perform hmaster curl s).m_tasks_running =
                [(t, { _prepare_task hmaster curl with running_handle := 1 })])))) := by
  have hq : s.m_task_queue = [] ∨ ∃ t rest, s.m_task_queue = t :: rest := by
    cases s.m_task_queue <;> simp
  rcases length_le_one_cases _ h with h0 | ⟨⟨k, i⟩, h1⟩
  · refine ⟨[], ?_, Or.inr ⟨by simp [h0, map_keys], Or.inl h0, ?_⟩⟩
    · rw [thread_iteration_idle _ _ _ _ h0]
      rcases hq with hq | ⟨t, rest, hq⟩
      · simp [(thread_step3_empty hmaster curl s hq).2.2.1]
      · rw [thread_step3_front _ _ _ _ _ hq]; simp
    · rw [thread_iteration_idle _ _ _ _ h0]
      rcases hq with hq | ⟨t, rest, hq⟩
      · have h3 := thread_step3_empty hmaster curl s hq
        exact Or.inl ⟨hq, h3.2.1, by rw [h3.1, h0]⟩
      · refine Or.inr ⟨t, rest, hq, ?_, ?_⟩
        · rw [thread_step3_front _ _ _ _ _ hq]
        · rw [thread_step3_front _ _ _ _ _ hq]
          simp [h0, map_set]
  · by_cases hp : perform 0 = 0
    · obtain ⟨s2, he, hr2, hq2, hf2, -, -⟩ :=
        thread_iteration_single_done perform hmaster curl s k i h1 hp
      rw [he]
      refine ⟨[k], ?_, Or.inr ⟨by simp [h1, map_keys], Or.inr hp, ?_⟩⟩
      · rcases hq with hq | ⟨t, rest, hq⟩
        · rw [(thread_step3_empty hmaster curl s2 (hq2.trans hq)).2.2.1, hf2]
        · rw [thread_step3_front _ _ s2 t rest (hq2.trans hq)]
          exact hf2
      · rcases hq with hq | ⟨t, rest, hq⟩
        · have h3 := thread_step3_empty hmaster curl s2 (hq2.trans hq)
          exact Or.inl ⟨hq, h3.2.1, h3.1.trans hr2⟩
        · refine Or.inr ⟨t, rest, hq, ?_, ?_⟩
          · rw [thread_step3_front _ _ s2 t rest (hq2.trans hq)]
          · rw [thread_step3_front _ _ s2 t rest (hq2.trans hq)]
            simp [hr2, map_set]
    · rw [thread_iteration_single_busy _ _ _ _ _ _ h1 hp]
      exact ⟨[], by simp, Or.inl ⟨rfl, rfl, k, i, h1, hp, rfl⟩⟩

/-! ## `cancel`, piece by piece -/

theorem cancel_running_absent (s : pool_impl) (t : Task)
    (h : map_find s.m_tasks_running t = none) : cancel_running s t = s := by
  unfold cancel_running
  rw [h]

theorem cancel_running_found (s : pool_impl) (t : Task) (it : Task × task_info)
    (h : map_find s.m_tasks_running t = some it) :
    cancel_running s t =
      { s with
        curl_calls := s.curl_calls ++ _cancel_running_task it.2.hmaster it.2.htasks
        task_status := set_status s.task_status t taskstatus.canceled
        m_task_finished := s.m_task_finished ++ [t]
        m_tasks_running := map_erase s.m_tasks_running t } := by
  unfold cancel_running
  rw [h]
  simp only [(map_find_some _ _ _ h).1]

theorem cancel_running_queue (s : pool_impl) (t : Task) :
    (cancel_running s t).m_task_queue = s.m_task_queue := by
  unfold cancel_running
  cases map_find s.m_tasks_running t <;> rfl

theorem cancel_some (s : pool_impl) (t : Task) (s1 : pool_impl) (h : cancel s t = some s1) :
    ∃ q, cancel_queue_scan t s.m_task_queue 0 = some q ∧
      s1 = { cancel_running s t with m_task_queue := q } := by
  unfold cancel at h
  simp only [cancel_running_queue] at h
  cases hq : cancel_queue_scan t s.m_task_queue 0 with
  | none => simp [hq] at h
  | some q =>
    rw [hq] at h
    exact ⟨q, rfl, (Option.some.inj h).symm⟩

theorem cancel_of_scan (s : pool_impl) (t : Task) (q : List Task)
    (h : cancel_queue_scan t s.m_task_queue 0 = some q) :
    cancel s t = some { cancel_running s t with m_task_queue := q } := by
  unfold cancel
  simp only [cancel_running_queue, h]

theorem map_erase_length (m : List (Task × task_info)) (k : Task) :
    (map_erase m k).length ≤ m.length := by
  induction m with
  | nil => simp [map_erase]
  | cons e rest ih =>
    unfold map_erase
    split_ifs
    · simp
    · simpa using ih

theorem cancel_running_length (s : pool_impl) (t : Task) :
    (cancel_running s t).m_tasks_running.length ≤ s.m_tasks_running.length := by
  cases h : map_find s.m_tasks_running t with
  | none => rw [cancel_running_absent s t h]
  | some it =>
    rw [cancel_running_found s t it h]
    exact map_erase_length _ _

/-! ## The single running slot -/

theorem thread_iteration_single_slot (perform : Nat → Int) (hmaster curl : Handle)
    (s : pool_impl) (h : s.m_tasks_running.length ≤ 1) :
    (thread_iteration perform hmaster curl s).m_tasks_running.length ≤ 1 := by
  obtain ⟨done, -, h1 | h2⟩ := thread_iteration_collections perform hmaster curl s h
  · obtain ⟨-, -, k, i, -, -, hr⟩ := h1
    rw [hr]; simp
  · obtain ⟨-, -, ⟨-, -, hr⟩ | ⟨t, rest, -, -, hr⟩⟩ := h2
    · rw [hr]; simp
    · rw [hr]; simp

theorem step_single_slot (s : pool_impl) (op : pool_op) (s1 : pool_impl)
    (h : s.m_tasks_running.length ≤ 1) (hs : step s op = some s1) :
    s1.m_tasks_running.length ≤ 1 := by
  cases op with
  | execute t =>
    simp only [step, Option.some.injEq] at hs
    subst hs
    unfold execute
    split_ifs <;> simpa using h
  | cancel t =>
    obtain ⟨q, -, rfl⟩ := cancel_some s t s1 hs
    exact (cancel_running_length s t).trans h
  | clear_all =>
    simp only [step, Option.some.injEq] at hs
    subst hs
    simp [clear_all, clear_all_finished, clear_all_queue, clear_all_running]
  | clear_all_running =>
    simp only [step, Option.some.injEq] at hs
    subst hs
    simp [clear_all_running]
  | clear_all_queue =>
    simp only [step, Option.some.injEq] at hs
    subst hs
    exact h
  | clear_all_finished =>
    simp only [step, Option.some.injEq] at hs
    subst hs
    exact h
  | iterate perform hmaster curl =>
    simp only [step, Option.some.injEq] at hs
    subst hs
    exact thread_iteration_single_slot perform hmaster curl s h

theorem run_single_slot (ops : List pool_op) (s s1 : pool_impl)
    (h : s.m_tasks_running.length ≤ 1) (hr : run s ops = some s1) :
    s1.m_tasks_running.length ≤ 1 := by
  induction ops generalizing s with
  | nil =>
    simp only [run, Option.some.injEq] at hr
    subst hr
    exact h
  | cons op ops ih =>
    unfold run at hr
    cases hs : step s op with
    | none => simp [hs] at hr
    | some s2 =>
      rw [hs] at hr
      exact ih s2 (step_single_slot s op s2 h hs) hr

/-! ## Membership in the three collections -/

theorem exclusive_step (s : pool_impl) (op : pool_op) (s1 : pool_impl)
    (hlen : s.m_tasks_running.length ≤ 1) (hnd : s.m_task_queue.Nodup)
    (hex : at_most_one_collection s)
    (hfresh : match op with
      | pool_op.execute t => ¬ held s t
      | _ => True)
    (hs : step s op = some s1) :
    s1.m_task_queue.Nodup ∧ at_most_one_collection s1 := by
  cases op with
  | execute t =>
    simp only [step, Option.some.injEq] at hs
    subst hs
    unfold execute
    split_ifs with h0
    · exact ⟨hnd, hex⟩
    · simp only [held, not_or] at hfresh
      obtain ⟨hq, hr, hf⟩ := hfresh
      refine ⟨?_, ?_⟩
      · simp only
        rw [List.nodup_append]
        refine ⟨hnd, List.nodup_singleton t, ?_⟩
        intro a ha hb
        rw [List.mem_singleton] at hb
        exact hq (hb ▸ ha)
      · intro u
        obtain ⟨h1, h2, h3⟩ := hex u
        simp only [List.mem_append, List.mem_singleton]
        refine ⟨?_, ?_, h3⟩
        · rintro ⟨hu | hu, hk⟩
          · exact h1 ⟨hu, hk⟩
          · exact hr (hu ▸ hk)
        · rintro ⟨hu | hu, hk⟩
          · exact h2 ⟨hu, hk⟩
          · exact hf (hu ▸ hk)
  | cancel t =>
    obtain ⟨q, hq, rfl⟩ := cancel_some s t s1 hs
    have hsub := cancel_queue_scan_sublist t _ 0 q hq
    refine ⟨hnd.sublist hsub, ?_⟩
    cases hfind : map_find s.m_tasks_running t with
    | none =>
      rw [cancel_running_absent s t hfind]
      intro u
      obtain ⟨h1, h2, h3⟩ := hex u
      exact ⟨fun h => h1 ⟨hsub.subset h.1, h.2⟩, fun h => h2 ⟨hsub.subset h.1, h.2⟩, h3⟩
    | some it =>
      rw [cancel_running_found s t it hfind]
      obtain ⟨hk, hmem⟩ := map_find_some _ _ _ hfind
      have hrun : s.m_tasks_running = [it] := by
        rcases length_le_one_cases _ hlen with h0 | ⟨a, h1⟩
        · rw [h0] at hmem; simp at hmem
        · rw [h1] at hmem ⊢
          simp at hmem
          rw [hmem]
      have htk : t ∈ map_keys s.m_tasks_running := by
        rw [hrun]; simp [map_keys, hk]
      intro u
      obtain ⟨h1, h2, h3⟩ := hex u
      simp only [hrun, map_erase, hk, if_true, map_keys, List.map_nil, List.not_mem_nil,
        and_false, not_false_eq_true, false_and, true_and, List.mem_append, List.mem_singleton]
      refine ⟨?_, trivial⟩
      rintro ⟨hu, hf | hf⟩
      · exact h2 ⟨hsub.subset hu, hf⟩
      · exact (hex t).1 ⟨hsub.subset (hf ▸ hu), htk⟩
  | clear_all =>
    simp only [step, Option.some.injEq] at hs
    subst hs
    refine ⟨by simp [clear_all, clear_all_finished, clear_all_queue, clear_all_running], ?_⟩
    intro u
    simp [clear_all, clear_all_finished, clear_all_queue, clear_all_running, map_keys]
  | clear_all_running =>
    simp only [step, Option.some.injEq] at hs
    subst hs
    refine ⟨hnd, ?_⟩
    intro u
    obtain ⟨-, h2, -⟩ := hex u
    exact ⟨by simp [clear_all_running, map_keys], h2, by simp [clear_all_running, map_keys]⟩
  | clear_all_queue =>
    simp only [step, Option.some.injEq] at hs
    subst hs
    refine ⟨List.nodup_nil, ?_⟩
    intro u
    obtain ⟨-, -, h3⟩ := hex u
    exact ⟨by simp [clear_all_queue], by simp [clear_all_queue], h3⟩
  | clear_all_finished =>
    simp only [step, Option.some.injEq] at hs
    subst hs
    refine ⟨hnd, ?_⟩
    intro u
    obtain ⟨h1, -, -⟩ := hex u
    exact ⟨h1, by simp [clear_all_finished], by simp [clear_all_finished]⟩
  | iterate perform hmaster curl =>
    simp only [step, Option.some.injEq] at hs
    subst hs
    obtain ⟨done, hfin, h1 | h2⟩ := thread_iteration_collections perform hmaster curl s hlen
    · obtain ⟨hd, hq, k, i, hr0, -, hr⟩ := h1
      refine ⟨by rw [hq]; exact hnd, ?_⟩
      intro u
      rw [hfin, hq, hr, hd, List.append_nil]
      have := hex u
      rw [hr0] at this
      simpa [map_keys] using this
    · obtain ⟨hd, -, ⟨hq0, hq, hr⟩ | ⟨t, rest, hq0, hq, hr⟩⟩ := h2
      · refine ⟨by rw [hq]; exact List.nodup_nil, ?_⟩
        intro u
        rw [hq, hr]
        simp [map_keys]
      · rw [hq0] at hnd
        refine ⟨by rw [hq]; exact (List.nodup_cons.mp hnd).2, ?_⟩
        intro u
        obtain ⟨h1, h2, h3⟩ := hex u
        rw [hq0] at h1 h2
        rw [hfin, hq, hr, hd]
        simp only [map_keys, List.map_cons, List.map_nil, List.mem_singleton, List.mem_append]
        refine ⟨?_, ?_, ?_⟩
        · rintro ⟨hu, rfl⟩
          exact (List.nodup_cons.mp hnd).1 hu
        · rintro ⟨hu, hf | hf⟩
          · exact h2 ⟨List.mem_cons_of_mem _ hu, hf⟩
          · exact h1 ⟨List.mem_cons_of_mem _ hu, hf⟩
        · rintro ⟨rfl, hf | hf⟩
          · exact h2 ⟨List.mem_cons_self _ _, hf⟩
          · exact h1 ⟨List.mem_cons_self _ _, hf⟩

theorem exclusive_run (ops : List pool_op) (s s1 : pool_impl)
    (hlen : s.m_tasks_running.length ≤ 1) (hnd : s.m_task_queue.Nodup)
    (hex : at_most_one_collection s) (hf : fresh_executes s ops)
    (hr : run s ops = some s1) : at_most_one_collection s1 := by
  induction ops generalizing s with
  | nil =>
    simp only [run, Option.some.injEq] at hr
    subst hr
    exact hex
  | cons op ops ih =>
    unfold run at hr
    unfold fresh_executes at hf
    cases hs : step s op with
    | none => simp [hs] at hr
    | some s2 =>
      rw [hs] at hr hf
      obtain ⟨hnd2, hex2⟩ := exclusive_step s op s2 hlen hnd hex hf.1 hs
      exact ih s2 (step_single_slot s op s2 hlen hs) hnd2 hex2 hf.2 hr

/-- C1, as stated: the claim quantifies over every sequence of operations,
and the sequence `execute(1)`, one coordinator iteration, `execute(1)` leaves
task 1 both in the queue and in the running map. -/
theorem exclusive_membership_fails :
    ¬ (∀ (status : Task → taskstatus) (ops : List pool_op) (s : pool_impl),
        run (empty_pool status) ops = some s → at_most_one_collection s) := by
  intro h
  have h1 := h (fun _ => taskstatus.created)
    [pool_op.execute 1, pool_op.iterate (fun _ => 1) 10 11, pool_op.execute 1] _ rfl
  exact (h1 1).1 (by decide)

/-- C1, amended: in every state reached from an empty pool by a sequence of
`execute`, `cancel`, `clear_all` and coordinator iterations (any pump
results) in which `execute` is only called on a task the pool does not hold
at that moment, every task is a member of at most one of the queue, the
running map and the finished list. -/
theorem exclusive_membership (status : Task → taskstatus) (ops : List pool_op) (s : pool_impl)
    (hf : fresh_executes (empty_pool status) ops)
    (hr : run (empty_pool status) ops = some s) : at_most_one_collection s :=
  exclusive_run ops (empty_pool status) s (by simp [empty_pool]) (by simp [empty_pool])
    (by intro u; simp [empty_pool, map_keys]) hf hr

/-- The amended C1 on a run with three fresh executes and two iterations. -/
theorem exclusive_membership_witness :
    ∃ s, run (empty_pool (fun _ => taskstatus.created))
        [pool_op.execute 1, pool_op.execute 2, pool_op.iterate (fun _ => 1) 10 11,
         pool_op.execute 3, pool_op.iterate (fun _ => 0) 12 13] = some s ∧
      at_most_one_collection s :=
  ⟨_, rfl, exclusive_membership (fun _ => taskstatus.created)
    [pool_op.execute 1, pool_op.execute 2, pool_op.iterate (fun _ => 1) 10 11,
     pool_op.execute 3, pool_op.iterate (fun _ => 0) 12 13] _
    (by simp [fresh_executes, held, step, execute, thread_iteration, thread_step1, pump,
          clear_finished, thread_step3, map_keys, map_set, map_erase, empty_pool, null_task,
          _prepare_task])
    rfl⟩

/-! ## `cancel` of a queued task -/

theorem cancel_queue_scan_overrun (t : Task) (queue : List Task) (it : Nat)
    (h : queue.length < it) : cancel_queue_scan t queue it = none := by
  rw [cancel_queue_scan]
  have h1 : ¬ it < queue.length := by omega
  have h2 : ¬ it = queue.length := by omega
  simp [h1, h2]

/-- When the only occurrence of `t` in the queue is its last element, the
scan erases it and then steps past `end()`. -/
theorem cancel_queue_scan_last (t : Task) (pre : List Task) (ht : t ∉ pre) (n it : Nat)
    (hn : pre.length - it = n) (hle : it ≤ pre.length) :
    cancel_queue_scan t (pre ++ [t]) it = none := by
  induction n generalizing it with
  | zero =>
    have hit : it = pre.length := by omega
    subst hit
    rw [cancel_queue_scan]
    have hlt : pre.length < (pre ++ [t]).length := by simp
    have hget : (pre ++ [t]).get ⟨pre.length, hlt⟩ = t := by simp
    rw [dif_pos hlt, if_pos hget]
    apply cancel_queue_scan_overrun
    rw [List.length_eraseIdx]
    simp
  | succ n ih =>
    have hlt0 : it < pre.length := by omega
    have hlt : it < (pre ++ [t]).length := by simp; omega
    have hget : (pre ++ [t]).get ⟨it, hlt⟩ ≠ t := by
      intro h
      apply ht
      have : (pre ++ [t]).get ⟨it, hlt⟩ = pre.get ⟨it, hlt0⟩ := by
        simp [List.getElem_append_left hlt0]
      rw [this] at h
      exact h ▸ List.get_mem pre it hlt0
    rw [cancel_queue_scan, dif_pos hlt, if_neg hget]
    exact ih (it + 1) (by omega) (by omega)

/-- With `t` queued once, as the last element of the queue, `cancel(t)` has
no result, whatever the rest of the state. -/
theorem cancel_last_queued_undefined (s : pool_impl) (t : Task) (pre : List Task)
    (hq : s.m_task_queue = pre ++ [t]) (ht : t ∉ pre) : cancel s t = none := by
  unfold cancel
  simp only [cancel_running_queue, hq]
  rw [cancel_queue_scan_last t pre ht pre.length 0 (by simp) (by simp)]

theorem cancel_queue_scan_skip (t : Task) (pre rest : List Task) (ht : t ∉ pre) (n it : Nat)
    (hn : pre.length - it = n) (hle : it ≤ pre.length) :
    cancel_queue_scan t (pre ++ rest) it = cancel_queue_scan t (pre ++ rest) pre.length := by
  induction n generalizing it with
  | zero =>
    have hit : it = pre.length := by omega
    rw [hit]
  | succ n ih =>
    have hlt0 : it < pre.length := by omega
    have hlt : it < (pre ++ rest).length := by simp; omega
    have hget : (pre ++ rest).get ⟨it, hlt⟩ ≠ t := by
      intro h
      apply ht
      have : (pre ++ rest).get ⟨it, hlt⟩ = pre.get ⟨it, hlt0⟩ := by
        simp [List.getElem_append_left hlt0]
      rw [this] at h
      exact h ▸ List.get_mem pre it hlt0
    rw [cancel_queue_scan, dif_pos hlt, if_neg hget]
    exact ih (it + 1) (by omega) (by omega)

/-- With `t` queued once and not as the last element, the scan removes it
and keeps the other elements in their order. -/
theorem cancel_queue_scan_inner (t x : Task) (pre post : List Task) (h1 : t ∉ pre)
    (h2 : t ≠ x) (h3 : t ∉ post) :
    cancel_queue_scan t (pre ++ t :: x :: post) 0 = some (pre ++ x :: post) := by
  rw [cancel_queue_scan_skip t pre (t :: x :: post) h1 pre.length 0 (by simp) (by simp)]
  have hlt : pre.length < (pre ++ t :: x :: post).length := by simp
  have hget : (pre ++ t :: x :: post).get ⟨pre.length, hlt⟩ = t := by
    rw [List.get_eq_getElem, List.getElem_append_right (le_refl _)]
    simp
  have herase : (pre ++ t :: x :: post).eraseIdx pre.length = pre ++ x :: post := by
    rw [List.eraseIdx_append_of_length_le (le_refl _)]
    simp
  rw [cancel_queue_scan, dif_pos hlt, if_pos hget, herase]
  apply cancel_queue_scan_absent
  · simp
  · simp only [List.mem_append, List.mem_cons, not_or]
    exact ⟨h1, h2, h3⟩

/-- C2: the queue scan of `cancel` misses what the claim promises.  After
`execute(1)`, `execute(2)` the call `cancel(2)`, on the last element of the
queue, steps past the end of the vector and has no result; after
`execute(1)`, `execute(1)`, `execute(2)` the call `cancel(1)` leaves the
queue `[1, 2]`, task 1 still queued. -/
theorem cancel_queued_scan_defect :
    run (empty_pool (fun _ => taskstatus.created))
        [pool_op.execute 1, pool_op.execute 2, pool_op.cancel 2] = none ∧
    (run (empty_pool (fun _ => taskstatus.created))
        [pool_op.execute 1, pool_op.execute 1, pool_op.execute 2, pool_op.cancel 1]).map
      (fun s => s.m_task_queue) = some [1, 2] := by
  constructor
  · simp [run, step, execute, null_task, empty_pool, cancel, cancel_running, map_find,
      cancel_queue_scan]
  · simp [run, step, execute, null_task, empty_pool, cancel, cancel_running, map_find,
      cancel_queue_scan]

/-! ## `cancel` of a running task -/

theorem not_mem_map_erase (m : List (Task × task_info)) (k : Task)
    (h : (map_keys m).Nodup) : k ∉ map_keys (map_erase m k) := by
  induction m with
  | nil => simp [map_erase, map_keys]
  | cons e rest ih =>
    simp only [map_keys, List.map_cons, List.nodup_cons] at h
    unfold map_erase
    split_ifs with he
    · rw [← he]
      exact h.1
    · simp only [map_keys, List.map_cons, List.mem_cons, not_or]
      exact ⟨fun hk => he hk.symm, ih h.2⟩

/-- What `cancel(t)` does to a running task, on every state in which its
queue scan has a result because `t` is not queued: the session is closed by
one `_cancel_running_task`, the status becomes canceled, `t` goes to the end
of the finished list and leaves the running map; the queue is untouched. -/
theorem cancel_running_effects (s : pool_impl) (t : Task) (it : Task × task_info)
    (hfind : map_find s.m_tasks_running t = some it)
    (hnd : (map_keys s.m_tasks_running).Nodup) (hq : t ∉ s.m_task_queue) :
    ∃ s1, cancel s t = some s1 ∧
      s1.curl_calls = s.curl_calls ++ _cancel_running_task it.2.hmaster it.2.htasks ∧
      s1.task_status t = taskstatus.canceled ∧
      s1.m_task_finished = s.m_task_finished ++ [t] ∧
      t ∉ map_keys s1.m_tasks_running ∧
      s1.m_task_queue = s.m_task_queue := by
  refine ⟨_, cancel_of_scan s t _ (cancel_queue_scan_absent t _ 0 (Nat.zero_le _) hq), ?_⟩
  rw [cancel_running_found s t it hfind]
  exact ⟨rfl, by simp [set_status], rfl, not_mem_map_erase _ _ hnd, rfl⟩

/-- C3: a running task that has been executed a second time is also the
last element of the queue; `cancel` closes its session and then its queue
scan steps past the end of the vector, so the call has no result.  The run
is `execute(1)`, one iteration admitting task 1, `execute(1)`, `cancel(1)`. -/
theorem cancel_running_scan_defect :
    (run (empty_pool (fun _ => taskstatus.created))
        [pool_op.execute 1, pool_op.iterate (fun _ => 1) 10 11, pool_op.execute 1]).map
      (fun s => (map_keys s.m_tasks_running, s.m_task_queue)) = some ([1], [1]) ∧
    run (empty_pool (fun _ => taskstatus.created))
        [pool_op.execute 1, pool_op.iterate (fun _ => 1) 10 11, pool_op.execute 1,
         pool_op.cancel 1] = none := by
  constructor
  · rfl
  · simp [run, step, execute, null_task, empty_pool, cancel, cancel_running, map_find,
      cancel_queue_scan, thread_iteration, thread_step1, pump, clear_finished, thread_step3,
      map_set, map_erase, map_keys]

/-! ## `execute` -/

/-- C4: `execute(t)` on a non-null task sets the status of `t` to queued,
appends `t` to the queue, leaves the running map and the finished list as
they were, and `is_queued(t)` then returns 1; `execute` of the null task
leaves the state as it was. -/
theorem execute_enqueues (s : pool_impl) (t : Task) (h : t ≠ null_task) :
    (execute s t).task_status t = taskstatus.queued ∧
    (execute s t).m_task_queue = s.m_task_queue ++ [t] ∧
    (execute s t).m_tasks_running = s.m_tasks_running ∧
    (execute s t).m_task_finished = s.m_task_finished ∧
    is_queued (execute s t) t = 1 ∧
    execute s null_task = s := by
  have hscan : ∀ q : List Task, queue_scan t 0 (q ++ [t]) = 1 := by
    intro q
    induction q with
    | nil => simp [queue_scan]
    | cons x q ih =>
      simp only [List.cons_append, queue_scan]
      split_ifs
      · rfl
      · exact ih
  refine ⟨?_, ?_, ?_, ?_, ?_, ?_⟩
  · simp [execute, h, set_status]
  · simp [execute, h]
  · simp [execute, h]
  · simp [execute, h]
  · simp only [is_queued, execute, h, if_false]
    exact hscan _
  · simp [execute]

/-- C4 on the empty pool and task 7. -/
theorem execute_enqueues_witness :
    (execute (empty_pool (fun _ => taskstatus.created)) 7).task_status 7 = taskstatus.queued ∧
    (execute (empty_pool (fun _ => taskstatus.created)) 7).m_task_queue = [] ++ [7] ∧
    (execute (empty_pool (fun _ => taskstatus.created)) 7).m_tasks_running = [] ∧
    (execute (empty_pool (fun _ => taskstatus.created)) 7).m_task_finished = [] ∧
    is_queued (execute (empty_pool (fun _ => taskstatus.created)) 7) 7 = 1 ∧
    execute (empty_pool (fun _ => taskstatus.created)) null_task =
      empty_pool (fun _ => taskstatus.created) :=
  execute_enqueues (empty_pool (fun _ => taskstatus.created)) 7 (by decide)

/-! ## The status queries -/

theorem queue_scan_eq (t : Task) (ret : Int) (queue : List Task) :
    queue_scan t ret queue = if t ∈ queue then 1 else ret := by
  induction queue with
  | nil => simp [queue_scan]
  | cons x rest ih =>
    unfold queue_scan
    by_cases hx : x = t
    · simp [hx]
    · have hx1 : ¬ t = x := fun h => hx h.symm
      simp [hx, hx1, ih]

theorem is_running_or_queued_eq (s : pool_impl) (t : Task) :
    is_running_or_queued s t = if t ∈ s.m_task_queue then 1 else is_running s t := by
  unfold is_running_or_queued is_running
  rw [queue_scan_eq]

theorem is_running_zero_or_one (s : pool_impl) (t : Task) :
    is_running s t = 0 ∨ is_running s t = 1 := by
  unfold is_running
  cases map_find s.m_tasks_running t with
  | none => exact Or.inl rfl
  | some it =>
    simp only
    split_ifs
    · exact Or.inr rfl
    · exact Or.inl rfl

theorem is_running_of_positive (s : pool_impl) (t : Task)
    (hpos : ∀ e ∈ s.m_tasks_running, 0 < e.2.running_handle) :
    is_running s t = 1 ↔ t ∈ map_keys s.m_tasks_running := by
  unfold is_running
  cases hfind : map_find s.m_tasks_running t with
  | none =>
    simp only
    constructor
    · intro h; exact absurd h (by decide)
    · intro h; exact absurd h ((map_find_none _ _).mp hfind)
  | some it =>
    obtain ⟨hk, hmem⟩ := map_find_some _ _ _ hfind
    have h1 : it.2.running_handle > 0 := hpos it hmem
    simp only [h1, if_true, true_iff]
    exact List.mem_map.mpr ⟨it, hmem, hk⟩

theorem map_erase_subset (m : List (Task × task_info)) (k : Task) (e : Task × task_info)
    (h : e ∈ map_erase m k) : e ∈ m := by
  induction m with
  | nil => simp [map_erase] at h
  | cons a rest ih =>
    unfold map_erase at h
    split_ifs at h
    · exact List.mem_cons_of_mem _ h
    · rcases List.mem_cons.mp h with h1 | h1
      · exact h1 ▸ List.mem_cons_self _ _
      · exact List.mem_cons_of_mem _ (ih h1)

theorem positive_step (s : pool_impl) (op : pool_op) (s1 : pool_impl)
    (hlen : s.m_tasks_running.length ≤ 1)
    (hpos : ∀ e ∈ s.m_tasks_running, 0 < e.2.running_handle)
    (hp : nonneg_pump op) (hs : step s op = some s1) :
    ∀ e ∈ s1.m_tasks_running, 0 < e.2.running_handle := by
  cases op with
  | execute t =>
    simp only [step, Option.some.injEq] at hs
    subst hs
    unfold execute
    split_ifs <;> exact hpos
  | cancel t =>
    obtain ⟨q, -, rfl⟩ := cancel_some s t s1 hs
    intro e he
    simp only at he
    cases hfind : map_find s.m_tasks_running t with
    | none =>
      rw [cancel_running_absent s t hfind] at he
      exact hpos e he
    | some it =>
      rw [cancel_running_found s t it hfind] at he
      exact hpos e (map_erase_subset _ _ _ he)
  | clear_all =>
    simp only [step, Option.some.injEq] at hs
    subst hs
    simp [clear_all, clear_all_finished, clear_all_queue, clear_all_running]
  | clear_all_running =>
    simp only [step, Option.some.injEq] at hs
    subst hs
    simp [clear_all_running]
  | clear_all_queue =>
    simp only [step, Option.some.injEq] at hs
    subst hs
    exact hpos
  | clear_all_finished =>
    simp only [step, Option.some.injEq] at hs
    subst hs
    exact hpos
  | iterate perform hmaster curl =>
    simp only [step, Option.some.injEq] at hs
    subst hs
    obtain ⟨done, -, h1 | h2⟩ := thread_iteration_collections perform hmaster curl s hlen
    · obtain ⟨-, -, k, i, -, hne, hr⟩ := h1
      rw [hr]
      intro e he
      rw [List.mem_singleton] at he
      subst he
      have h0 : 0 ≤ perform 0 := hp 0
      exact lt_of_le_of_ne h0 (Ne.symm hne)
    · obtain ⟨-, -, ⟨-, -, hr⟩ | ⟨t, rest, -, -, hr⟩⟩ := h2
      · rw [hr]; simp
      · rw [hr]
        intro e he
        rw [List.mem_singleton] at he
        subst he
        exact Int.one_pos

theorem positive_run (ops : List pool_op) (s s1 : pool_impl)
    (hlen : s.m_tasks_running.length ≤ 1)
    (hpos : ∀ e ∈ s.m_tasks_running, 0 < e.2.running_handle)
    (hp : ∀ op ∈ ops, nonneg_pump op) (hr : run s ops = some s1) :
    ∀ e ∈ s1.m_tasks_running, 0 < e.2.running_handle := by
  induction ops generalizing s with
  | nil =>
    simp only [run, Option.some.injEq] at hr
    subst hr
    exact hpos
  | cons op ops ih =>
    unfold run at hr
    cases hs : step s op with
    | none => simp [hs] at hr
    | some s2 =>
      rw [hs] at hr
      exact ih s2 (step_single_slot s op s2 hlen hs)
        (positive_step s op s2 hlen hpos (hp op (List.mem_cons_self _ _)) hs)
        (fun o ho => hp o (List.mem_cons_of_mem _ ho)) hr

/-- The admission step on any state whose queue starts with `t`: the
combined query answers 1 before it and 1 after it, when `t` has left the
queue for the running map. -/
theorem is_running_or_queued_across_admission (hmaster curl : Handle) (s : pool_impl)
    (t : Task) (rest : List Task) (hq : s.m_task_queue = t :: rest) :
    is_running_or_queued s t = 1 ∧
    is_running_or_queued (thread_step3 hmaster curl s) t = 1 ∧
    t ∈ map_keys (thread_step3 hmaster curl s).m_tasks_running ∧
    (thread_step3 hmaster curl s).m_task_queue = rest := by
  have hfind := map_find_map_set s.m_tasks_running t
    { _prepare_task hmaster curl with running_handle := 1 }
  refine ⟨?_, ?_, ?_, ?_⟩
  · rw [is_running_or_queued_eq, hq]
    simp
  · rw [is_running_or_queued_eq, thread_step3_front _ _ _ _ _ hq]
    simp only [is_running, hfind]
    split_ifs <;> first | rfl | simp at *
  · rw [thread_step3_front _ _ _ _ _ hq]
    exact List.mem_map.mpr ⟨_, (map_find_some _ _ _ hfind).2, rfl⟩
  · rw [thread_step3_front _ _ _ _ _ hq]

/-- C5: in every state reached from an empty pool with non-negative pump
results, `is_running_or_queued(t)` is 1 exactly when `t` is in the queue or
in the running map, and it is the logical or of `is_running(t)` and
`is_queued(t)` on that state; and when an iteration from that state admits
`t` from the front of the queue, the query answers 1 on the state just
before the admission step and on the state just after it. -/
theorem is_running_or_queued_reachable (status : Task → taskstatus) (ops : List pool_op)
    (s : pool_impl) (t : Task) (hp : ∀ op ∈ ops, nonneg_pump op)
    (hr : run (empty_pool status) ops = some s) :
    (is_running_or_queued s t = 1 ↔
      (t ∈ s.m_task_queue ∨ t ∈ map_keys s.m_tasks_running)) ∧
    (is_running_or_queued s t =
      if is_running s t ≠ 0 ∨ is_queued s t ≠ 0 then 1 else 0) ∧
    (∀ (perform : Nat → Int) (hmaster curl : Handle) (rest : List Task),
      (thread_step1 perform s).2 = 0 →
      (thread_step1 perform s).1.m_task_queue = t :: rest →
        thread_iteration perform hmaster curl s =
          thread_step3 hmaster curl (thread_step1 perform s).1 ∧
        is_running_or_queued (thread_step1 perform s).1 t = 1 ∧
        is_running_or_queued (thread_iteration perform hmaster curl s) t = 1 ∧
        t ∈ map_keys (thread_iteration perform hmaster curl s).m_tasks_running ∧
        (thread_iteration perform hmaster curl s).m_task_queue = rest) := by
  have hpos := positive_run ops (empty_pool status) s (by simp [empty_pool])
    (by simp [empty_pool]) hp hr
  have hrun := is_running_of_positive s t hpos
  refine ⟨?_, ?_, ?_⟩
  · rw [is_running_or_queued_eq]
    by_cases hq : t ∈ s.m_task_queue
    · simp [hq]
    · simp only [hq, if_false, false_or]
      exact hrun
  · rw [is_running_or_queued_eq]
    unfold is_queued
    rw [queue_scan_eq]
    by_cases hq : t ∈ s.m_task_queue
    · simp [hq]
    · rcases is_running_zero_or_one s t with h0 | h1
      · simp [hq, h0]
      · simp [hq, h1]
  · intro perform hmaster curl rest h0 hq
    have heq : thread_iteration perform hmaster curl s =
        thread_step3 hmaster curl (thread_step1 perform s).1 := by
      unfold thread_iteration
      simp only [h0, if_true]
    obtain ⟨h1, h2, h3, h4⟩ :=
      is_running_or_queued_across_admission hmaster curl _ t rest hq
    rw [heq]
    exact ⟨rfl, h1, h2, h3, h4⟩

/-- C5 on a run of two executes and two iterations with positive counts. -/
theorem is_running_or_queued_reachable_witness :
    ∃ s, run (empty_pool (fun _ => taskstatus.created))
        [pool_op.execute 1, pool_op.execute 2, pool_op.iterate (fun _ => 1) 10 11,
         pool_op.iterate (fun _ => 3) 12 13] = some s ∧
      (is_running_or_queued s 2 = 1 ↔
        (2 ∈ s.m_task_queue ∨ 2 ∈ map_keys s.m_tasks_running)) :=
  ⟨_, rfl, (is_running_or_queued_reachable (fun _ => taskstatus.created)
    [pool_op.execute 1, pool_op.execute 2, pool_op.iterate (fun _ => 1) 10 11,
     pool_op.iterate (fun _ => 3) 12 13] _ 2
    (by
      intro op hop
      simp only [List.mem_cons, List.mem_singleton, List.not_mem_nil, or_false] at hop
      rcases hop with rfl | rfl | rfl | rfl
      · trivial
      · trivial
      · intro k; exact Int.one_pos.le
      · intro k; exact Int.le_of_lt (by norm_num))
    rfl).1⟩

/-! ## `clear_all` -/

theorem cancel_running_task_cleanups (hmaster : Handle) (htasks : List Handle) :
    (_cancel_running_task hmaster htasks).filter is_multi_cleanup =
      [curl_call.multi_cleanup hmaster] := by
  unfold _cancel_running_task
  rw [List.filter_append]
  have h : ∀ l : List Handle,
      (l.flatMap (fun h =>
        [curl_call.multi_remove_handle hmaster h, curl_call.easy_cleanup h])).filter
        is_multi_cleanup = [] := by
    intro l
    induction l with
    | nil => rfl
    | cons a l ih =>
      rw [List.flatMap_cons, List.filter_append, ih]
      rfl
  rw [h]
  rfl

/-- The three sections of `clear_all` with no other step between them:
afterwards the queue, the running map and the finished list are empty; the
transport calls added are one `_cancel_running_task` per entry of the
running map, in map order, and nothing else, so that among them there is
exactly one `curl_multi_cleanup` per running entry, on that entry's master
handle. -/
theorem clear_all_closes_each_session_once (s : pool_impl) :
    (clear_all s).m_task_queue = [] ∧
    (clear_all s).m_tasks_running = [] ∧
    (clear_all s).m_task_finished = [] ∧
    (∃ closing : List curl_call,
      (clear_all s).curl_calls = s.curl_calls ++ closing ∧
      closing = (s.m_tasks_running.map
        (fun it => _cancel_running_task it.2.hmaster it.2.htasks)).flatten ∧
      closing.filter is_multi_cleanup =
        s.m_tasks_running.map (fun it => curl_call.multi_cleanup it.2.hmaster) ∧
      closing.filter is_multi_init = []) := by
  refine ⟨rfl, rfl, rfl, _, rfl, ?_, ?_, ?_⟩
  · induction s.m_tasks_running with
    | nil => rfl
    | cons e rest ih =>
      rw [List.flatMap_cons, List.map_cons, List.flatten_cons, ih]
  · induction s.m_tasks_running with
    | nil => rfl
    | cons e rest ih =>
      rw [List.flatMap_cons, List.filter_append, ih, cancel_running_task_cleanups]
      rfl
  · induction s.m_tasks_running with
    | nil => rfl
    | cons e rest ih =>
      rw [List.flatMap_cons, List.filter_append, ih, List.append_nil]
      unfold _cancel_running_task
      rw [List.filter_append]
      have h : ∀ l : List Handle,
          (l.flatMap (fun h =>
            [curl_call.multi_remove_handle e.2.hmaster h, curl_call.easy_cleanup h])).filter
            is_multi_init = [] := by
        intro l
        induction l with
        | nil => rfl
        | cons a l ih2 =>
          rw [List.flatMap_cons, List.filter_append, ih2]
          rfl
      rw [h]
      rfl

/-! ## Admission order -/

theorem fifo_step (s : pool_impl) (op : pool_op) (hop : execute_or_iterate op)
    (hlen : s.m_tasks_running.length ≤ 1) :
    ∃ s1, step s op = some s1 ∧
      s1.m_task_finished ++ map_keys s1.m_tasks_running ++ s1.m_task_queue =
        s.m_task_finished ++ map_keys s.m_tasks_running ++ s.m_task_queue ++ executed [op] := by
  cases op with
  | execute t =>
    refine ⟨execute s t, rfl, ?_⟩
    unfold execute executed
    by_cases h0 : t = null_task
    · simp [h0, executed]
    · simp [h0, executed]
  | cancel t => exact absurd hop (by simp [execute_or_iterate])
  | clear_all => exact absurd hop (by simp [execute_or_iterate])
  | clear_all_running => exact absurd hop (by simp [execute_or_iterate])
  | clear_all_queue => exact absurd hop (by simp [execute_or_iterate])
  | clear_all_finished => exact absurd hop (by simp [execute_or_iterate])
  | iterate perform hmaster curl =>
    refine ⟨thread_iteration perform hmaster curl s, rfl, ?_⟩
    obtain ⟨done, hfin, h1 | h2⟩ := thread_iteration_collections perform hmaster curl s hlen
    · obtain ⟨hd, hq, k, i, hr0, -, hr⟩ := h1
      rw [hfin, hq, hr, hd, hr0]
      simp [map_keys, executed]
    · obtain ⟨hd, -, ⟨hq0, hq, hr⟩ | ⟨t, rest, hq0, hq, hr⟩⟩ := h2
      · rw [hfin, hq, hr, hd, hq0]
        simp [map_keys, executed]
      · rw [hfin, hq, hr, hd, hq0]
        simp [map_keys, executed]

theorem executed_cons (op : pool_op) (ops : List pool_op) :
    executed (op :: ops) = executed [op] ++ executed ops := by
  cases op with
  | execute t =>
    by_cases h0 : t = null_task
    · simp [h0, executed]
    · simp [h0, executed]
  | cancel t => simp [executed]
  | clear_all => simp [executed]
  | clear_all_running => simp [executed]
  | clear_all_queue => simp [executed]
  | clear_all_finished => simp [executed]
  | iterate perform hmaster curl => simp [executed]

theorem fifo_run (ops : List pool_op) (s : pool_impl)
    (hops : ∀ op ∈ ops, execute_or_iterate op) (hlen : s.m_tasks_running.length ≤ 1) :
    ∃ s1, run s ops = some s1 ∧
      s1.m_task_finished ++ map_keys s1.m_tasks_running ++ s1.m_task_queue =
        s.m_task_finished ++ map_keys s.m_tasks_running ++ s.m_task_queue ++ executed ops := by
  induction ops generalizing s with
  | nil => exact ⟨s, rfl, by simp [executed]⟩
  | cons op ops ih =>
    obtain ⟨s2, hs, h2⟩ := fifo_step s op (hops op (List.mem_cons_self _ _)) hlen
    obtain ⟨s1, hr, h1⟩ := ih s2 (fun o ho => hops o (List.mem_cons_of_mem _ ho))
      (step_single_slot s op s2 hlen hs)
    refine ⟨s1, ?_, ?_⟩
    · unfold run
      rw [hs]
      exact hr
    · rw [h1, h2, executed_cons op ops, List.append_assoc]

/-- C7: from an empty pool, any interleaving of `execute` calls and
coordinator iterations, whatever the pump results and with no `cancel` or
`clear_all`, reaches a state in which the finished list, followed by the
running task if there is one, followed by the queue, is the list of the
non-null executed tasks in execute order; so the finished list is an initial
segment of that list.  The executed tasks need not be distinct for this. -/
theorem finish_order_is_execute_order (status : Task → taskstatus) (ops : List pool_op)
    (hops : ∀ op ∈ ops, execute_or_iterate op) :
    ∃ s, run (empty_pool status) ops = some s ∧
      s.m_tasks_running.length ≤ 1 ∧
      s.m_task_finished ++ map_keys s.m_tasks_running ++ s.m_task_queue = executed ops ∧
      s.m_task_finished <+: executed ops := by
  obtain ⟨s, hr, h⟩ := fifo_run ops (empty_pool status) hops (by simp [empty_pool])
  have h1 : s.m_task_finished ++ map_keys s.m_tasks_running ++ s.m_task_queue =
      executed ops := by
    rw [h]
    simp [empty_pool, map_keys]
  refine ⟨s, hr, run_single_slot ops _ s (by simp [empty_pool]) hr, h1, ?_⟩
  rw [← h1, List.append_assoc]
  exact List.prefix_append _ _

/-- C7 on three executes interleaved with two iterations. -/
theorem finish_order_is_execute_order_witness :
    ∃ s, run (empty_pool (fun _ => taskstatus.created))
        [pool_op.execute 1, pool_op.execute 2, pool_op.iterate (fun _ => 1) 10 11,
         pool_op.execute 3, pool_op.iterate (fun _ => 0) 12 13] = some s ∧
      s.m_tasks_running.length ≤ 1 ∧
      s.m_task_finished ++ map_keys s.m_tasks_running ++ s.m_task_queue = [1, 2, 3] ∧
      s.m_task_finished <+: [1, 2, 3] :=
  finish_order_is_execute_order (fun _ => taskstatus.created)
    [pool_op.execute 1, pool_op.execute 2, pool_op.iterate (fun _ => 1) 10 11,
     pool_op.execute 3, pool_op.iterate (fun _ => 0) 12 13]
    (by
      intro op hop
      simp only [List.mem_cons, List.mem_singleton, List.not_mem_nil, or_false] at hop
      rcases hop with rfl | rfl | rfl | rfl | rfl <;> trivial)

/-! ## One task at a time -/

theorem thread_step1_single_slot (perform : Nat → Int) (s : pool_impl)
    (h : s.m_tasks_running.length ≤ 1) :
    (thread_step1 perform s).2 = (thread_step1 perform s).1.m_tasks_running.length ∧
    (thread_step1 perform s).1.m_task_queue = s.m_task_queue := by
  rcases length_le_one_cases _ h with h0 | ⟨⟨k, i⟩, h1⟩
  · cases s
    simp only at h0
    subst h0
    simp [thread_step1, pump, clear_finished]
  · cases s
    simp only at h1
    subst h1
    by_cases hp : perform 0 = 0
    · simp [thread_step1, pump, clear_finished, hp, map_erase]
    · simp [thread_step1, pump, clear_finished, hp, map_erase]

/-- C8: in every state reached from an empty pool the running map holds at
most one task.  In an iteration from such a state `tasks_still_running` is
the number of tasks left in the running map after pumping; when it is not 0
the iteration ends with step 1 and admits nothing; when it is 0 the running
map is empty and, if the queue is not empty, exactly its front element is
moved into the running map. -/
theorem one_task_at_a_time (status : Task → taskstatus) (ops : List pool_op) (s : pool_impl)
    (hr : run (empty_pool status) ops = some s) :
    s.m_tasks_running.length ≤ 1 ∧
    ∀ (perform : Nat → Int) (hmaster curl : Handle),
      (thread_step1 perform s).2 = (thread_step1 perform s).1.m_tasks_running.length ∧
      ((thread_step1 perform s).2 ≠ 0 →
        thread_iteration perform hmaster curl s = (thread_step1 perform s).1) ∧
      ((thread_step1 perform s).2 = 0 →
        (thread_step1 perform s).1.m_tasks_running = [] ∧
        (∀ t rest, (thread_step1 perform s).1.m_task_queue = t :: rest →
          (thread_iteration perform hmaster curl s).m_tasks_running =
            [(t, { _prepare_task hmaster curl with running_handle := 1 })] ∧
          (thread_iteration perform hmaster curl s).m_task_queue = rest ∧
          (thread_iteration perform hmaster curl s).m_task_finished =
            (thread_step1 perform s).1.m_task_finished) ∧
        ((thread_step1 perform s).1.m_task_queue = [] →
          (thread_iteration perform hmaster curl s).m_tasks_running = [] ∧
          (thread_iteration perform hmaster curl s).m_task_queue = [])) := by
  have hlen := run_single_slot ops _ s (by simp [empty_pool]) hr
  refine ⟨hlen, ?_⟩
  intro perform hmaster curl
  obtain ⟨hcount, -⟩ := thread_step1_single_slot perform s hlen
  refine ⟨hcount, ?_, ?_⟩
  · intro hne
    unfold thread_iteration
    simp only [hne, if_false]
  · intro h0
    have hnil : (thread_step1 perform s).1.m_tasks_running = [] :=
      List.length_eq_zero.mp (hcount ▸ h0)
    have heq : thread_iteration perform hmaster curl s =
        thread_step3 hmaster curl (thread_step1 perform s).1 := by
      unfold thread_iteration
      simp only [h0, if_true]
    refine ⟨hnil, ?_, ?_⟩
    · intro t rest hq
      rw [heq, thread_step3_front _ _ _ _ _ hq]
      simp [hnil, map_set]
    · intro hq
      have h3 := thread_step3_empty hmaster curl _ hq
      rw [heq]
      exact ⟨h3.1.trans hnil, h3.2.1⟩

/-- C8 on a run that uses every kind of step but `cancel`. -/
theorem one_task_at_a_time_witness :
    ∃ s, run (empty_pool (fun _ => taskstatus.created))
        [pool_op.execute 1, pool_op.execute 2, pool_op.iterate (fun _ => 1) 10 11,
         pool_op.iterate (fun _ => 1) 12 13, pool_op.clear_all, pool_op.execute 3] = some s ∧
      s.m_tasks_running.length ≤ 1 :=
  ⟨_, rfl, (one_task_at_a_time (fun _ => taskstatus.created)
    [pool_op.execute 1, pool_op.execute 2, pool_op.iterate (fun _ => 1) 10 11,
     pool_op.iterate (fun _ => 1) 12 13, pool_op.clear_all, pool_op.execute 3] _ rfl).1⟩

/-! ## Status changes -/

theorem pump_toclear (perform : Nat → Int) (sleep_period : Int) (k : Nat)
    (m : List (Task × task_info)) (e : Task × task_info)
    (he : e ∈ (pump perform sleep_period k m).its_running_toclear) :
    ∃ j, ∃ h : j < m.length, (m.get ⟨j, h⟩).1 = e.1 ∧ perform (k + j) = 0 := by
  induction m generalizing k with
  | nil => simp [pump] at he
  | cons a rest ih =>
    unfold pump at he
    simp only at he
    by_cases hp : perform k = 0
    · rw [if_pos hp] at he
      rcases List.mem_cons.mp he with h1 | h1
      · exact ⟨0, by simp, by simp [h1], by simpa using hp⟩
      · obtain ⟨j, hj, hk, hz⟩ := ih (k + 1) h1
        refine ⟨j + 1, by simpa using hj, by simpa using hk, ?_⟩
        rw [← hz]
        congr 1
        omega
    · rw [if_neg hp] at he
      obtain ⟨j, hj, hk, hz⟩ := ih (k + 1) he
      refine ⟨j + 1, by simpa using hj, by simpa using hk, ?_⟩
      rw [← hz]
      congr 1
      omega

theorem clear_finished_status (s : pool_impl) (l : List (Task × task_info)) (u : Task) :
    (clear_finished s l).task_status u =
      if u ∈ map_keys l then taskstatus.completed else s.task_status u := by
  induction l generalizing s with
  | nil => simp [clear_finished, map_keys]
  | cons e rest ih =>
    unfold clear_finished
    rw [ih]
    by_cases h1 : u ∈ map_keys rest
    · simp [h1, map_keys] at *
      simp [h1]
    · by_cases h2 : u = e.1
      · simp [h1, h2, map_keys, set_status]
      · have h3 : u ∉ map_keys (e :: rest) := by
          simp only [map_keys, List.map_cons, List.mem_cons, not_or]
          exact ⟨h2, h1⟩
        simp [h1, h3, set_status, h2]

theorem thread_step3_status (hmaster curl : Handle) (s : pool_impl) :
    (thread_step3 hmaster curl s).task_status = s.task_status := by
  have hq : s.m_task_queue = [] ∨ ∃ t rest, s.m_task_queue = t :: rest := by
    cases s.m_task_queue <;> simp
  rcases hq with hq | ⟨t, rest, hq⟩
  · exact (thread_step3_empty hmaster curl s hq).2.2.2.1
  · rw [thread_step3_front _ _ _ _ _ hq]

theorem thread_iteration_status (perform : Nat → Int) (hmaster curl : Handle) (s : pool_impl)
    (u : Task) :
    (thread_iteration perform hmaster curl s).task_status u =
      if u ∈ map_keys (pump perform s.sleep_period 0 s.m_tasks_running).its_running_toclear
      then taskstatus.completed else s.task_status u := by
  have h1 : (thread_step1 perform s).1.task_status u =
      if u ∈ map_keys (pump perform s.sleep_period 0 s.m_tasks_running).its_running_toclear
      then taskstatus.completed else s.task_status u := by
    unfold thread_step1
    simp only
    rw [clear_finished_status]
  unfold thread_iteration
  simp only
  by_cases h0 : (thread_step1 perform s).2 = 0
  · rw [if_pos h0, thread_step3_status]
    exact h1
  · rw [if_neg h0]
    exact h1

/-- C9, as stated: from an empty pool whose tasks are all created,
`execute(1)` and an admitting iteration leave task 1 running with status
queued, and the iteration in which its pump reports 0 changes the status
from queued to completed, which is not one of the five listed transitions;
and a completed task that is executed again goes from completed to queued. -/
theorem lifecycle_fails :
    ¬ (∀ (ops : List pool_op) (s : pool_impl) (op : pool_op) (s1 : pool_impl) (u : Task),
        run (empty_pool (fun _ => taskstatus.created)) ops = some s →
        step s op = some s1 → s1.task_status u ≠ s.task_status u →
        lifecycle_transition (s.task_status u) (s1.task_status u) = true) ∧
    ¬ (∀ (ops : List pool_op) (s : pool_impl) (op : pool_op) (s1 : pool_impl) (u : Task),
        run (empty_pool (fun _ => taskstatus.created)) ops = some s →
        step s op = some s1 →
        s.task_status u = taskstatus.completed ∨ s.task_status u = taskstatus.canceled →
        s1.task_status u = s.task_status u) := by
  constructor
  · intro h
    have h1 := h [pool_op.execute 1, pool_op.iterate (fun _ => 1) 10 11] _
      (pool_op.iterate (fun _ => 0) 12 13) _ 1 rfl rfl (by decide)
    revert h1
    decide
  · intro h
    have h1 := h [pool_op.execute 1, pool_op.iterate (fun _ => 1) 10 11,
      pool_op.iterate (fun _ => 0) 12 13] _ (pool_op.execute 1) _ 1 rfl rfl
      (Or.inl (by decide))
    revert h1
    decide

/-- Which step wrote a status that changed: `execute(u)` on a non-null `u`
wrote queued, `cancel(u)` on a `u` in the running map wrote canceled, or a
coordinator iteration wrote completed for a `u` in the running map whose
pump reported 0. -/
theorem status_changes (s : pool_impl) (op : pool_op) (s1 : pool_impl) (u : Task)
    (hs : step s op = some s1) (hne : s1.task_status u ≠ s.task_status u) :
    (op = pool_op.execute u ∧ u ≠ null_task ∧ s1.task_status u = taskstatus.queued) ∨
    (op = pool_op.cancel u ∧ u ∈ map_keys s.m_tasks_running ∧
      s1.task_status u = taskstatus.canceled) ∨
    (∃ (perform : Nat → Int) (hmaster curl : Handle) (j : Nat),
      op = pool_op.iterate perform hmaster curl ∧
      (∃ h : j < s.m_tasks_running.length, (s.m_tasks_running.get ⟨j, h⟩).1 = u) ∧
      perform j = 0 ∧ s1.task_status u = taskstatus.completed) := by
  cases op with
  | execute t =>
    simp only [step, Option.some.injEq] at hs
    subst hs
    left
    unfold execute at hne ⊢
    by_cases h0 : t = null_task
    · simp [h0] at hne
    · simp only [h0, if_false, set_status] at hne ⊢
      by_cases hu : u = t
      · subst hu
        exact ⟨rfl, h0, by simp⟩
      · simp [hu] at hne
  | cancel t =>
    obtain ⟨q, -, rfl⟩ := cancel_some s t s1 hs
    right; left
    simp only at hne ⊢
    cases hfind : map_find s.m_tasks_running t with
    | none =>
      rw [cancel_running_absent s t hfind] at hne
      exact absurd rfl hne
    | some it =>
      rw [cancel_running_found s t it hfind] at hne ⊢
      simp only [set_status] at hne ⊢
      by_cases hu : u = t
      · subst hu
        obtain ⟨hk, hmem⟩ := map_find_some _ _ _ hfind
        exact ⟨rfl, List.mem_map.mpr ⟨it, hmem, hk⟩, by simp⟩
      · simp [hu] at hne
  | clear_all =>
    simp only [step, Option.some.injEq] at hs
    subst hs
    exact absurd rfl hne
  | clear_all_running =>
    simp only [step, Option.some.injEq] at hs
    subst hs
    exact absurd rfl hne
  | clear_all_queue =>
    simp only [step, Option.some.injEq] at hs
    subst hs
    exact absurd rfl hne
  | clear_all_finished =>
    simp only [step, Option.some.injEq] at hs
    subst hs
    exact absurd rfl hne
  | iterate perform hmaster curl =>
    simp only [step, Option.some.injEq] at hs
    subst hs
    right; right
    rw [thread_iteration_status] at hne ⊢
    by_cases hu : u ∈ map_keys (pump perform s.sleep_period 0 s.m_tasks_running).its_running_toclear
    · obtain ⟨e, he, hk⟩ := List.mem_map.mp hu
      obtain ⟨j, hj, hkey, hz⟩ := pump_toclear perform _ 0 _ e he
      refine ⟨perform, hmaster, curl, j, rfl, ⟨hj, hkey.trans hk⟩, ?_, by simp [hu]⟩
      simpa using hz
    · simp [hu] at hne

/-- The lemma `status_changes` on the step `execute(1)` from the empty pool. -/
theorem status_changes_witness :
    (pool_op.execute 1 = pool_op.execute 1 ∧ (1 : Task) ≠ null_task ∧
      (execute (empty_pool (fun _ => taskstatus.created)) 1).task_status 1 =
        taskstatus.queued) ∨
    (pool_op.execute 1 = pool_op.cancel 1 ∧
      1 ∈ map_keys (empty_pool (fun _ => taskstatus.created)).m_tasks_running ∧
      (execute (empty_pool (fun _ => taskstatus.created)) 1).task_status 1 =
        taskstatus.canceled) ∨
    (∃ (perform : Nat → Int) (hmaster curl : Handle) (j : Nat),
      pool_op.execute 1 = pool_op.iterate perform hmaster curl ∧
      (∃ h : j < (empty_pool (fun _ => taskstatus.created)).m_tasks_running.length,
        ((empty_pool (fun _ => taskstatus.created)).m_tasks_running.get ⟨j, h⟩).1 = 1) ∧
      perform j = 0 ∧
      (execute (empty_pool (fun _ => taskstatus.created)) 1).task_status 1 =
        taskstatus.completed) :=
  status_changes (empty_pool (fun _ => taskstatus.created)) (pool_op.execute 1)
    (execute (empty_pool (fun _ => taskstatus.created)) 1) 1 rfl (by decide)

/-! ## The write callback -/

theorem response_size_after_mod (response_size : Nat) (chunks : List (Nat × Nat)) :
    response_size_after response_size chunks % 2 ^ 64 =
      (response_size + (chunks.map (fun c => (c.1 * c.2) % 2 ^ 64)).sum + chunks.length)
        % 2 ^ 64 := by
  induction chunks generalizing response_size with
  | nil => simp [response_size_after]
  | cons c rest ih =>
    unfold response_size_after
    rw [ih]
    simp only [write_mem_callback, List.map_cons, List.sum_cons, List.length_cons]
    omega

/-- C10: every invocation of `write_mem_callback` adds `size * nmemb + 1` to
the response size, one more than the bytes it was given.  After one
invocation with 5 bytes the size is 6; after invocations with 5, 7 and 8
bytes it is 23, not 20. -/
theorem write_mem_callback_adds_one :
    response_size_after 0 [(1, 5)] = 6 ∧
    response_size_after 0 [(1, 5), (1, 7), (2, 4)] = 23 ∧
    (write_mem_callback 0 1 5).2 + (write_mem_callback 6 1 7).2
      + (write_mem_callback 14 2 4).2 = 20 := by
  refine ⟨?_, ?_, ?_⟩ <;> decide

/-! ## The sleep period -/

/-- C6: `clear_all` releases the running lock before it takes the queue
lock, and a coordinator iteration that falls between the two sections admits
the task at the front of the queue.  The run is `execute(1)`, `execute(2)`,
an iteration admitting task 1, then `clear_all`: its first section closes
the session of task 1, an iteration admits task 2, its second and third
sections empty the queue and the finished list.  When the call returns the
running map holds task 2, whose session (master handle 12) has been opened
and not closed. -/
theorem clear_all_admission_between_sections :
    (run (empty_pool (fun _ => taskstatus.created))
        [pool_op.execute 1, pool_op.execute 2, pool_op.iterate (fun _ => 1) 10 11,
         pool_op.clear_all_running, pool_op.iterate (fun _ => 1) 12 13,
         pool_op.clear_all_queue, pool_op.clear_all_finished]).map
      (fun s => (map_keys s.m_tasks_running, s.m_task_queue, s.m_task_finished,
        s.curl_calls.filter is_multi_init, s.curl_calls.filter is_multi_cleanup)) =
      some ([2], [], [], [curl_call.multi_init 10, curl_call.multi_init 12],
        [curl_call.multi_cleanup 10]) := by
  rfl

/-! ## The life cycle when every task is executed once -/

theorem executed_append (a b : List pool_op) :
    executed (a ++ b) = executed a ++ executed b := by
  induction a with
  | nil => simp [executed]
  | cons op a ih =>
    rw [List.cons_append, executed_cons op (a ++ b), executed_cons op a, ih, List.append_assoc]

theorem mem_map_keys_erase (m : List (Task × task_info)) (k u : Task)
    (h : u ∈ map_keys (map_erase m k)) : u ∈ map_keys m := by
  obtain ⟨e, he, hk⟩ := List.mem_map.mp h
  exact List.mem_map.mpr ⟨e, map_erase_subset m k e he, hk⟩

/-- Where the members of the collections after a step come from, and what
the step did to the status of a task that is queued or running after it. -/
theorem step_membership (s : pool_impl) (op : pool_op) (s1 : pool_impl) (u : Task)
    (hlen : s.m_tasks_running.length ≤ 1) (hex : at_most_one_collection s)
    (hs : step s op = some s1) :
    (held s1 u → held s u ∨ (op = pool_op.execute u ∧ u ≠ null_task)) ∧
    (u ∈ s1.m_task_queue ∨ u ∈ map_keys s1.m_tasks_running →
      (op = pool_op.execute u ∧ u ≠ null_task ∧ s1.task_status u = taskstatus.queued) ∨
      ((u ∈ s.m_task_queue ∨ u ∈ map_keys s.m_tasks_running) ∧
        s1.task_status u = s.task_status u)) := by
  cases op with
  | execute t =>
    simp only [step, Option.some.injEq] at hs
    subst hs
    by_cases h0 : t = null_task
    · simp only [execute, h0, if_true]
      exact ⟨fun h => Or.inl h, fun h => Or.inr ⟨h, trivial⟩⟩
    · simp only [execute, h0, if_false]
      by_cases hu : u = t
      · subst hu
        exact ⟨fun _ => Or.inr ⟨rfl, h0⟩, fun _ => Or.inl ⟨rfl, h0, by simp [set_status]⟩⟩
      · constructor
        · intro h
          left
          simpa [held, hu] using h
        · intro h
          right
          refine ⟨by simpa [hu] using h, by simp [set_status, hu]⟩
  | cancel t =>
    obtain ⟨q, hq, rfl⟩ := cancel_some s t s1 hs
    have hsub := cancel_queue_scan_sublist t _ 0 q hq
    cases hfind : map_find s.m_tasks_running t with
    | none =>
      rw [cancel_running_absent s t hfind]
      constructor
      · rintro (h | h | h)
        · exact Or.inl (Or.inl (hsub.subset h))
        · exact Or.inl (Or.inr (Or.inl h))
        · exact Or.inl (Or.inr (Or.inr h))
      · rintro (h | h)
        · exact Or.inr ⟨Or.inl (hsub.subset h), rfl⟩
        · exact Or.inr ⟨Or.inr h, rfl⟩
    | some it =>
      rw [cancel_running_found s t it hfind]
      obtain ⟨hk, hmem⟩ := map_find_some _ _ _ hfind
      have htk : t ∈ map_keys s.m_tasks_running := List.mem_map.mpr ⟨it, hmem, hk⟩
      have hrun : s.m_tasks_running = [it] := by
        rcases length_le_one_cases _ hlen with h0 | ⟨a, h1⟩
        · rw [h0] at hmem; simp at hmem
        · rw [h1] at hmem ⊢
          simp at hmem
          rw [hmem]
      have hnil : map_erase s.m_tasks_running t = [] := by
        rw [hrun]
        simp [map_erase, hk]
      constructor
      · rintro (h | h | h)
        · exact Or.inl (Or.inl (hsub.subset h))
        · exact Or.inl (Or.inr (Or.inl (mem_map_keys_erase _ _ _ h)))
        · simp only [List.mem_append, List.mem_singleton] at h
          rcases h with h | h
          · exact Or.inl (Or.inr (Or.inr h))
          · exact Or.inl (Or.inr (Or.inl (h ▸ htk)))
      · simp only [hnil, map_keys, List.map_nil, List.not_mem_nil, or_false]
        intro h
        have huq : u ∈ s.m_task_queue := hsub.subset h
        have hne : u ≠ t := fun e => (hex t).1 ⟨e ▸ huq, htk⟩
        exact Or.inr ⟨Or.inl huq, by simp [set_status, hne]⟩
  | clear_all =>
    simp only [step, Option.some.injEq] at hs
    subst hs
    constructor
    · intro h
      simp [held, clear_all, clear_all_finished, clear_all_queue, clear_all_running,
        map_keys] at h
    · intro h
      simp [clear_all, clear_all_finished, clear_all_queue, clear_all_running, map_keys] at h
  | clear_all_running =>
    simp only [step, Option.some.injEq] at hs
    subst hs
    constructor
    · rintro (h | h | h)
      · exact Or.inl (Or.inl h)
      · simp [clear_all_running, map_keys] at h
      · exact Or.inl (Or.inr (Or.inr h))
    · rintro (h | h)
      · exact Or.inr ⟨Or.inl h, rfl⟩
      · simp [clear_all_running, map_keys] at h
  | clear_all_queue =>
    simp only [step, Option.some.injEq] at hs
    subst hs
    constructor
    · rintro (h | h | h)
      · simp [clear_all_queue] at h
      · exact Or.inl (Or.inr (Or.inl h))
      · exact Or.inl (Or.inr (Or.inr h))
    · rintro (h | h)
      · simp [clear_all_queue] at h
      · exact Or.inr ⟨Or.inr h, rfl⟩
  | clear_all_finished =>
    simp only [step, Option.some.injEq] at hs
    subst hs
    constructor
    · rintro (h | h | h)
      · exact Or.inl (Or.inl h)
      · exact Or.inl (Or.inr (Or.inl h))
      · simp [clear_all_finished] at h
    · rintro (h | h)
      · exact Or.inr ⟨Or.inl h, rfl⟩
      · exact Or.inr ⟨Or.inr h, rfl⟩
  | iterate perform hmaster curl =>
    have hs0 := hs
    simp only [step, Option.some.injEq] at hs
    subst hs
    have hkeep : u ∈ s.m_task_queue →
        (thread_iteration perform hmaster curl s).task_status u = s.task_status u := by
      intro huq
      by_contra hne
      rcases status_changes s _ _ u hs0 hne with h | h | ⟨_, _, _, j, -, ⟨hj, hk⟩, -, -⟩
      · exact absurd h.1 (by simp)
      · exact absurd h.1 (by simp)
      · exact (hex u).1 ⟨huq, List.mem_map.mpr ⟨_, List.get_mem _ j hj, hk⟩⟩
    obtain ⟨done, hfin, h1 | h2⟩ := thread_iteration_collections perform hmaster curl s hlen
    · obtain ⟨hd, hq, k, i, hr0, hp, hr⟩ := h1
      constructor
      · rintro (h | h | h)
        · exact Or.inl (Or.inl (hq ▸ h))
        · rw [hr] at h
          exact Or.inl (Or.inr (Or.inl (by rw [hr0]; simpa [map_keys] using h)))
        · rw [hfin, hd, List.append_nil] at h
          exact Or.inl (Or.inr (Or.inr h))
      · rintro (h | h)
        · rw [hq] at h
          exact Or.inr ⟨Or.inl h, hkeep h⟩
        · rw [hr] at h
          have huk : u = k := by simpa [map_keys] using h
          refine Or.inr ⟨Or.inr (by rw [hr0]; simp [map_keys, huk]), ?_⟩
          by_contra hne
          rcases status_changes s _ _ u hs0 hne with h | h | ⟨p, _, _, j, hop, ⟨hj, -⟩, hz, -⟩
          · exact absurd h.1 (by simp)
          · exact absurd h.1 (by simp)
          · simp only [pool_op.iterate.injEq] at hop
            rw [hr0] at hj
            have hj0 : j = 0 := by simpa using hj
            rw [← hop.1, hj0] at hz
            exact hp hz
    · obtain ⟨hd, -, ⟨hq0, hq, hr⟩ | ⟨t, rest, hq0, hq, hr⟩⟩ := h2
      · constructor
        · rintro (h | h | h)
          · rw [hq] at h; simp at h
          · rw [hr] at h; simp [map_keys] at h
          · rw [hfin, hd, List.mem_append] at h
            rcases h with h | h
            · exact Or.inl (Or.inr (Or.inr h))
            · exact Or.inl (Or.inr (Or.inl h))
        · rintro (h | h)
          · rw [hq] at h; simp at h
          · rw [hr] at h; simp [map_keys] at h
      · constructor
        · rintro (h | h | h)
          · rw [hq] at h
            exact Or.inl (Or.inl (hq0 ▸ List.mem_cons_of_mem _ h))
          · rw [hr] at h
            have hut : u = t := by simpa [map_keys] using h
            exact Or.inl (Or.inl (by rw [hq0, hut]; exact List.mem_cons_self _ _))
          · rw [hfin, hd, List.mem_append] at h
            rcases h with h | h
            · exact Or.inl (Or.inr (Or.inr h))
            · exact Or.inl (Or.inr (Or.inl h))
        · rintro (h | h)
          · rw [hq] at h
            have huq : u ∈ s.m_task_queue := hq0 ▸ List.mem_cons_of_mem _ h
            exact Or.inr ⟨Or.inl huq, hkeep huq⟩
          · rw [hr] at h
            have hut : u = t := by simpa [map_keys] using h
            have huq : u ∈ s.m_task_queue := by rw [hq0, hut]; exact List.mem_cons_self _ _
            exact Or.inr ⟨Or.inl huq, hkeep huq⟩

theorem executed_single (t : Task) (h : t ≠ null_task) :
    executed [pool_op.execute t] = [t] := by
  simp [executed, h]

/-- The status a changed task had before the step and has after it, on a
state in which every task has been executed at most once. -/
theorem status_change_from (s : pool_impl) (done : List Task) (op : pool_op) (s1 : pool_impl)
    (u : Task) (hinv : once_only_inv s done) (hnd : (done ++ executed [op]).Nodup)
    (hs : step s op = some s1) (hne : s1.task_status u ≠ s.task_status u) :
    (s.task_status u = taskstatus.created ∧ s1.task_status u = taskstatus.queued ∧
      u ∉ done ∧ u ∈ executed [op]) ∨
    (s.task_status u = taskstatus.queued ∧ s1.task_status u = taskstatus.canceled ∧
      u ∈ done) ∨
    (s.task_status u = taskstatus.queued ∧ s1.task_status u = taskstatus.completed ∧
      u ∈ done) := by
  obtain ⟨-, -, -, hheld, hcreated, hqueued⟩ := hinv
  rcases status_changes s op s1 u hs hne with ⟨hop, h0, hst⟩ | ⟨-, hk, hst⟩ |
      ⟨_, _, _, j, -, ⟨hj, hk⟩, -, hst⟩
  · subst hop
    rw [executed_single u h0] at hnd ⊢
    have hu : u ∉ done := by
      intro hmem
      exact (List.nodup_append.mp hnd).2.2 hmem (List.mem_singleton_self u)
    exact Or.inl ⟨hcreated u hu, hst, hu, List.mem_singleton_self u⟩
  · exact Or.inr (Or.inl ⟨hqueued u (Or.inr hk), hst, hheld u (Or.inr (Or.inl hk))⟩)
  · have hmem : u ∈ map_keys s.m_tasks_running :=
      List.mem_map.mpr ⟨_, List.get_mem _ j hj, hk⟩
    exact Or.inr (Or.inr ⟨hqueued u (Or.inr hmem), hst, hheld u (Or.inr (Or.inl hmem))⟩)

theorem fresh_of_once (s : pool_impl) (done : List Task)
    (hheld : ∀ u, held s u → u ∈ done) :
    ∀ op : pool_op, (done ++ executed [op]).Nodup → op ≠ pool_op.execute null_task →
      match op with
      | pool_op.execute t => ¬ held s t
      | _ => True := by
  intro op hnd hnull
  cases op with
  | execute t =>
    have h0 : t ≠ null_task := fun h => hnull (by rw [h])
    rw [executed_single t h0] at hnd
    intro hh
    exact (List.nodup_append.mp hnd).2.2 (hheld t hh) (List.mem_singleton_self t)
  | cancel t => trivial
  | clear_all => trivial
  | clear_all_running => trivial
  | clear_all_queue => trivial
  | clear_all_finished => trivial
  | iterate perform hmaster curl => trivial

theorem once_only_step (s : pool_impl) (done : List Task) (op : pool_op) (s1 : pool_impl)
    (hinv : once_only_inv s done) (hnd : (done ++ executed [op]).Nodup)
    (hs : step s op = some s1) : once_only_inv s1 (done ++ executed [op]) := by
  by_cases hnull : op = pool_op.execute null_task
  · subst hnull
    simp only [step, Option.some.injEq] at hs
    subst hs
    simpa [execute, executed] using hinv
  · have hinv0 := hinv
    obtain ⟨hlen, hq, hex, hheld, hcreated, hqueued⟩ := hinv
    have hfresh := fresh_of_once s done hheld op hnd hnull
    obtain ⟨hq1, hex1⟩ := exclusive_step s op s1 hlen hq hex hfresh hs
    refine ⟨step_single_slot s op s1 hlen hs, hq1, hex1, ?_, ?_, ?_⟩
    · intro u hu
      rcases (step_membership s op s1 u hlen hex hs).1 hu with h | ⟨hop, h0⟩
      · exact List.mem_append_left _ (hheld u h)
      · subst hop
        rw [executed_single u h0]
        exact List.mem_append_right _ (List.mem_singleton_self u)
    · intro u hu
      have hu1 : u ∉ done := fun h => hu (List.mem_append_left _ h)
      have hu2 : u ∉ executed [op] := fun h => hu (List.mem_append_right _ h)
      by_cases hne : s1.task_status u = s.task_status u
      · rw [hne]
        exact hcreated u hu1
      · rcases status_change_from s done op s1 u hinv0 hnd hs hne with h | h | h
        · exact absurd h.2.2.2 hu2
        · exact absurd h.2.2 hu1
        · exact absurd h.2.2 hu1
    · intro u hu
      rcases (step_membership s op s1 u hlen hex hs).2 hu with ⟨-, -, hst⟩ | ⟨hold, hst⟩
      · exact hst
      · rw [hst]
        exact hqueued u hold

theorem once_only_run (ops : List pool_op) (s s1 : pool_impl) (done : List Task)
    (hinv : once_only_inv s done) (hnd : (done ++ executed ops).Nodup)
    (hr : run s ops = some s1) : once_only_inv s1 (done ++ executed ops) := by
  induction ops generalizing s done with
  | nil =>
    simp only [run, Option.some.injEq] at hr
    subst hr
    simpa [executed] using hinv
  | cons op ops ih =>
    unfold run at hr
    rw [executed_cons op ops, ← List.append_assoc] at hnd ⊢
    cases hs : step s op with
    | none => simp [hs] at hr
    | some s2 =>
      rw [hs] at hr
      have hnd1 : (done ++ executed [op]).Nodup := (List.nodup_append.mp hnd).1
      exact ih s2 (done ++ executed [op]) (once_only_step s done op s2 hinv hnd1 hs) hnd hr

theorem once_only_empty : once_only_inv (empty_pool (fun _ => taskstatus.created)) [] := by
  refine ⟨by simp [empty_pool], by simp [empty_pool], ?_, ?_, ?_, ?_⟩
  · intro u
    simp [empty_pool, map_keys]
  · intro u hu
    simp [held, empty_pool, map_keys] at hu
  · intro u _
    rfl
  · intro u hu
    simp [empty_pool, map_keys] at hu

/-- C9, amended: take a run from an empty pool whose tasks are all created,
followed by one more step, in which no task is executed more than once.
Every change the step makes to the status of a task is one of created to
queued, queued to running, running to completed, queued to canceled,
running to canceled, or queued to completed; a task whose status is
completed or canceled keeps it.  `execute` of a non-null task finds it
created and leaves it queued; `cancel` of a task in the running map finds
it queued, returns, and leaves it canceled; an iteration in which the pump
of the running task reports 0 finds it queued and leaves it completed. -/
theorem lifecycle_once_only (ops : List pool_op) (s : pool_impl) (op : pool_op) (u : Task)
    (honce : (executed (ops ++ [op])).Nodup)
    (hr : run (empty_pool (fun _ => taskstatus.created)) ops = some s) :
    (∀ s1, step s op = some s1 → s1.task_status u ≠ s.task_status u →
      pool_transition (s.task_status u) (s1.task_status u) = true) ∧
    (∀ s1, step s op = some s1 →
      s.task_status u = taskstatus.completed ∨ s.task_status u = taskstatus.canceled →
      s1.task_status u = s.task_status u) ∧
    (op = pool_op.execute u → u ≠ null_task →
      s.task_status u = taskstatus.created ∧ step s op = some (execute s u) ∧
      (execute s u).task_status u = taskstatus.queued) ∧
    (op = pool_op.cancel u → u ∈ map_keys s.m_tasks_running →
      s.task_status u = taskstatus.queued ∧
      ∃ s1, step s op = some s1 ∧ s1.task_status u = taskstatus.canceled) ∧
    (∀ (perform : Nat → Int) (hmaster curl : Handle) (i : task_info),
      op = pool_op.iterate perform hmaster curl → s.m_tasks_running = [(u, i)] →
      perform 0 = 0 →
      s.task_status u = taskstatus.queued ∧
      step s op = some (thread_iteration perform hmaster curl s) ∧
      (thread_iteration perform hmaster curl s).task_status u = taskstatus.completed) := by
  rw [executed_append] at honce
  have hinv : once_only_inv s (executed ops) := by
    have h := once_only_run ops _ s [] once_only_empty
      (by simpa using (List.nodup_append.mp honce).1) hr
    simpa using h
  have hinv0 := hinv
  obtain ⟨-, -, hex, -, hcreated, hqueued⟩ := hinv
  refine ⟨?_, ?_, ?_, ?_, ?_⟩
  · intro s1 hs hne
    rcases status_change_from s _ op s1 u hinv0 honce hs hne with h | h | h
    · rw [h.1, h.2.1]; rfl
    · rw [h.1, h.2.1]; rfl
    · rw [h.1, h.2.1]; rfl
  · intro s1 hs hterm
    by_contra hne
    rcases status_change_from s _ op s1 u hinv0 honce hs hne with h | h | h <;>
      rcases hterm with ht | ht <;> rw [h.1] at ht <;> exact absurd ht (by decide)
  · intro hop h0
    subst hop
    rw [executed_single u h0] at honce
    have hu : u ∉ executed ops := fun hmem =>
      (List.nodup_append.mp honce).2.2 hmem (List.mem_singleton_self u)
    exact ⟨hcreated u hu, rfl, by simp [execute, h0, set_status]⟩
  · intro hop hk
    subst hop
    refine ⟨hqueued u (Or.inr hk), ?_⟩
    have hq : u ∉ s.m_task_queue := fun h => (hex u).1 ⟨h, hk⟩
    cases hfind : map_find s.m_tasks_running u with
    | none => exact absurd hk ((map_find_none _ _).mp hfind)
    | some it =>
      refine ⟨_, cancel_of_scan s u _ (cancel_queue_scan_absent u _ 0 (Nat.zero_le _) hq), ?_⟩
      rw [cancel_running_found s u it hfind]
      simp [set_status]
  · intro perform hmaster curl i hop hrun hp
    subst hop
    refine ⟨hqueued u (Or.inr (by rw [hrun]; simp [map_keys])), rfl, ?_⟩
    obtain ⟨s2, he, -, -, -, hst, -⟩ :=
      thread_iteration_single_done perform hmaster curl s u i hrun hp
    rw [he, thread_step3_status, hst]
    simp [set_status]

/-- The amended C9 on the iteration that completes task 1, after
`execute(1)` and the iteration that admitted it. -/
theorem lifecycle_once_only_witness :
    (thread_iteration (fun _ => 1) 10 11
      (execute (empty_pool (fun _ => taskstatus.created)) 1)).task_status 1 =
        taskstatus.queued ∧
    step (thread_iteration (fun _ => 1) 10 11
        (execute (empty_pool (fun _ => taskstatus.created)) 1))
      (pool_op.iterate (fun _ => 0) 12 13) =
      some (thread_iteration (fun _ => 0) 12 13 (thread_iteration (fun _ => 1) 10 11
        (execute (empty_pool (fun _ => taskstatus.created)) 1))) ∧
    (thread_iteration (fun _ => 0) 12 13 (thread_iteration (fun _ => 1) 10 11
      (execute (empty_pool (fun _ => taskstatus.created)) 1))).task_status 1 =
        taskstatus.completed :=
  (lifecycle_once_only [pool_op.execute 1, pool_op.iterate (fun _ => 1) 10 11]
    (thread_iteration (fun _ => 1) 10 11
      (execute (empty_pool (fun _ => taskstatus.created)) 1))
    (pool_op.iterate (fun _ => 0) 12 13) 1 (by decide) rfl).2.2.2.2
    (fun _ => 0) 12 13 { _prepare_task 10 11 with running_handle := 1 } rfl rfl rfl

end sinet
